import Mathlib

/-!
# Verification development for the `run` command runner

Shallow embedding of the text-normalisation, option-evaluation and command
registration code of `command.go`, `main.go` and `internal/runfile/runfile.go`.

Modelling conventions.

* A Go `string` is a Lean `String`, read as its sequence of runes (`String.data`).
  The only runes the normalisation code inspects are the four one-byte whitespace
  runes, so a prefix made of them has as many bytes as runes and the byte slice
  `line[len(leadingWS):]` of a line that starts with `leadingWS` drops exactly
  that many runes.
* A Go slice `[]string` is a `List String`; re-slicing `txt[1:]` drops the head and
  `txt[:len(txt)-1]` shortens the length by one.
* A run-time panic is an explicit outcome (`none`, or a `panic` constructor).
* Go `strings.ToLower` maps every Unicode letter, not only the ASCII ones. The code
  that calls it takes it as the parameter `lower`, and the results about that code
  hold for every such function; `asciiLower` stands in for it at ASCII inputs.
-/

set_option autoImplicit false

namespace Run

/-! ## command.go : whitespace classification -/

/-- Source `isWhitespace`: true for one of space, tab, line feed, carriage return. -/
def isWhitespace (r : Char) : Bool :=
  r == ' ' || r == '\t' || r == '\n' || r == '\r'

/-- Body of the `for _, r := range line` loop of `isLineWhitespaceOnly`, over the
runes that are still to be visited. -/
def isLineWhitespaceOnlyLoop : List Char → Bool
  | [] => true
  | r :: rest => if !isWhitespace r then false else isLineWhitespaceOnlyLoop rest

/-- Source `isLineWhitespaceOnly`: true when the line holds only whitespace runes
(the empty line included). -/
def isLineWhitespaceOnly (line : String) : Bool :=
  isLineWhitespaceOnlyLoop line.data

/-! ## command.go : the two trimming loops -/

/-- Loop `for len(txt) > 0 && isLineWhitespaceOnly(txt[0]) { txt = txt[1:] }`. -/
def dropLeadingBlank : List String → List String
  | [] => []
  | line :: rest =>
    if isLineWhitespaceOnly line then dropLeadingBlank rest else line :: rest

/-- Loop `for len(txt) > 0 && isLineWhitespaceOnly(txt[len(txt)-1]) { txt = txt[:len(txt)-1] }`
run on the slice length: from length `n` it yields the length at which the loop stops. -/
def trailingBlankLen (txt : List String) : Nat → Nat
  | 0 => 0
  | n + 1 =>
    match txt.get? n with
    | some line => if isLineWhitespaceOnly line then trailingBlankLen txt n else n + 1
    | none => n + 1

/-- The slice left by the trailing loop: `txt[:k]` for the length `k` it stops at. -/
def dropTrailingBlank (txt : List String) : List String :=
  txt.take (trailingBlankLen txt txt.length)

/-! ## command.go : normalizeCmdDesc and normalizeCmdScript -/

/-- Source `normalizeCmdDesc`. -/
def normalizeCmdDesc (txt : List String) : List String :=
  if txt.length = 0 then txt
  else dropTrailingBlank (dropLeadingBlank txt)

/-- Loop `i := 0; for isWhitespace(runes[i]) { i++ }`. The list is `runes[i:]`, the
part of the line not yet scanned; indexing past the end of `runes` panics, which is
`none`. -/
def leadingWhitespaceScan : List Char → Nat → Option Nat
  | [], _ => none
  | r :: rest, i => if isWhitespace r then leadingWhitespaceScan rest (i + 1) else some i

/-- Go `strings.HasPrefix`. -/
def hasPrefix (s pre : String) : Bool :=
  pre.data.isPrefixOf s.data

/-- Go slice expression `s[n:]`, for `n` counting one-byte runes. -/
def sliceFrom (s : String) (n : Nat) : String :=
  ⟨s.data.drop n⟩

/-- The statement `if strings.HasPrefix(line, leadingWS) { txt[j] = line[len(leadingWS):] }`
applied to one line. -/
def stripLeadingWS (leadingWS line : String) : String :=
  if hasPrefix line leadingWS then sliceFrom line leadingWS.length else line

/-- Source `normalizeCmdScript`; `none` is the index-out-of-range panic of the
leading-whitespace scan. -/
def normalizeCmdScript (txt : List String) : Option (List String) :=
  if txt.length = 0 then some txt
  else
    let txt := dropTrailingBlank (dropLeadingBlank txt)
    match txt with
    | [] => some txt
    | first :: _ =>
      let runes := first.data
      match leadingWhitespaceScan runes 0 with
      | none => none
      | some i =>
        if i > 0 then
          let leadingWS : String := ⟨runes.take i⟩
          some (txt.map (stripLeadingWS leadingWS))
        else some txt

/-! ## internal/runfile/runfile.go : the command model -/

/-- Go `map[string]string`, as the list of its bindings; the first binding of a key
is the one in force. -/
abbrev AttrMap := List (String × String)

/-- Go map index expression `m[key]` on a `map[string]string`: the value bound to the
key, the empty string when the key is absent. -/
def AttrMap.index (m : AttrMap) (key : String) : String :=
  (m.lookup key).getD ""

/-- Modelled from the spec: the type `Scope` of `internal/runfile` is not among the
sources. The spec gives a scope an attribute map from names to string values and an
optional reference to an enclosing scope; `root` is a scope without parent. -/
inductive Scope where
  | root (attrs : AttrMap)
  | child (attrs : AttrMap) (parent : Scope)
  deriving DecidableEq, Repr

/-- Field `Attrs` of a scope: its own attribute map. -/
def Scope.Attrs : Scope → AttrMap
  | .root attrs => attrs
  | .child attrs _ => attrs

/-- Modelled from the spec: the enclosing scope, when there is one. -/
def Scope.Parent : Scope → Option Scope
  | .root _ => none
  | .child _ parent => some parent

/-- Modelled from the spec: the scope at the top of the parent chain, which for a
command scope is the global scope. -/
def Scope.global : Scope → Scope
  | .root attrs => .root attrs
  | .child _ parent => parent.global

/-- Source `RunCmdOpt`; `Short` is a rune, the rune `0` when the option has no short
form. -/
structure RunCmdOpt where
  Name : String
  Short : Char
  Long : String
  Value : String
  Desc : String
  deriving DecidableEq, Repr

/-- Source `RunCmdConfig`. -/
structure RunCmdConfig where
  Shell : String
  Desc : List String
  Usages : List String
  Opts : List RunCmdOpt
  deriving DecidableEq, Repr

/-- Source `RunCmd`. -/
structure RunCmd where
  Name : String
  Config : RunCmdConfig
  Scope : Scope
  Script : List String
  deriving DecidableEq, Repr

/-- Source `RunCmd.Title`: the first description line, or the empty string. -/
def RunCmd.Title (c : RunCmd) : String :=
  match c.Config.Desc with
  | first :: _ => first
  | [] => ""

/-- Modelled from the spec: `defaultIfEmpty` of `internal/runfile` is not among the
sources. It returns the value, falling back to the default when the value is empty. -/
def defaultIfEmpty (value dflt : String) : String :=
  if value.length = 0 then dflt else value

/-- Source `RunCmd.Shell`. -/
def RunCmd.Shell (c : RunCmd) : String :=
  defaultIfEmpty c.Config.Shell (c.Scope.Attrs.index ".SHELL")

/-- Source `Runfile`. -/
structure Runfile where
  Scope : Scope
  Cmds : List RunCmd
  deriving DecidableEq, Repr

/-- Source `Runfile.DefaultShell`: the `.SHELL` entry of the runfile's (global) scope,
and whether it is present and not empty. -/
def Runfile.DefaultShell (r : Runfile) : String × Bool :=
  match r.Scope.Attrs.lookup ".SHELL" with
  | some shell => (shell, decide (shell.length > 0))
  | none => ("", false)

/-- A runfile whose global scope sets `.SHELL` to `bash`, with one command `build`
that has no shell override; `ownAttrs` is the attribute map of the command's own
scope, whose parent is the global scope. -/
def shellRunfile (ownAttrs : AttrMap) : Runfile :=
  { Scope := .root [(".SHELL", "bash")]
    Cmds := [{ Name := "build"
               Config := { Shell := "", Desc := [], Usages := [], Opts := [] }
               Scope := .child ownAttrs (.root [(".SHELL", "bash")])
               Script := ["make"] }] }

/-! ## main.go : command registration -/

/-- Lower-casing of the ASCII letters: `A`-`Z` are mapped to `a`-`z` and every other
rune is kept. On a string of ASCII runes this is Go `strings.ToLower`; on other
strings it is not, so the code below takes `strings.ToLower` as the parameter `lower`
and this function serves for ASCII inputs only. -/
def asciiLower (s : String) : String :=
  ⟨s.data.map Char.toLower⟩

/-- A `config.Command` as built in `main`: its name, its title, and the runfile
command its `Help`, `Run` and `Rename` closures are bound to (`none` for a built-in). -/
structure Command where
  Name : String
  Title : String
  Target : Option RunCmd
  deriving DecidableEq, Repr

/-- The built-in `listCmd` of `main`. -/
def listCmd : Command :=
  { Name := "list", Title := "(builtin) List available commands", Target := none }

/-- The built-in `helpCmd` of `main`. -/
def helpCmd : Command :=
  { Name := "help", Title := "(builtin) Show Help for a command", Target := none }

/-- The `config.Command` that the loop of `main` builds for a runfile command. -/
def mkCommand (rfcmd : RunCmd) : Command :=
  { Name := rfcmd.Name, Title := rfcmd.Title, Target := some rfcmd }

/-- The package-level `config.CommandMap` (Go `map[string]*Command`, a lookup
function here) and `config.CommandList`. -/
structure Registry where
  CommandMap : String → Option Command
  CommandList : List Command

/-- Go map assignment `m[key] = cmd`. -/
def mapSet (m : String → Option Command) (key : String) (cmd : Command) :
    String → Option Command :=
  fun k => if k = key then some cmd else m k

/-- Modelled from the spec: `config.CommandMap` and `config.CommandList` are declared
in `internal/config`, which is not among the sources; both are empty when `main`
starts. -/
def Registry.initial : Registry :=
  { CommandMap := fun _ => none, CommandList := [] }

/-- The statements `config.CommandMap[name] = cmd` and
`config.CommandList = append(config.CommandList, cmd)` that end the loop body, for
`name := strings.ToLower(rfcmd.Name)`; `lower` is Go `strings.ToLower`. -/
def Registry.add (lower : String → String) (reg : Registry) (rfcmd : RunCmd) : Registry :=
  { CommandMap := mapSet reg.CommandMap (lower rfcmd.Name) (mkCommand rfcmd)
    CommandList := reg.CommandList ++ [mkCommand rfcmd] }

/-- Outcome of the registration code: it completes with a registry, or it panics with
a message, leaving the registry as it was at the `panic` call. -/
inductive RegisterResult where
  | ok (reg : Registry)
  | panicked (msg : String) (reg : Registry)

/-- The loop `for _, rfcmd := range rf.Cmds { ... }` of `main` (lines 130-144);
`lower` is Go `strings.ToLower`. -/
def registerLoop (lower : String → String) : List RunCmd → Registry → RegisterResult
  | [], reg => .ok reg
  | rfcmd :: rest, reg =>
    let name := lower rfcmd.Name
    match reg.CommandMap name with
    | some _ => .panicked ("Duplicate command: " ++ name) reg
    | none => registerLoop lower rest (Registry.add lower reg rfcmd)

/-- Lines 126-128 of `main`: the registry once the two built-ins are registered. -/
def builtinRegistry : Registry :=
  let reg := Registry.initial
  { CommandMap := mapSet (mapSet reg.CommandMap "list" listCmd) "help" helpCmd
    CommandList := reg.CommandList ++ [listCmd, helpCmd] }

/-- Lines 126-144 of `main`: the two built-ins are registered, then the commands of
the runfile in source order; `lower` is Go `strings.ToLower`. -/
def registerCommands (lower : String → String) (cmds : List RunCmd) : RegisterResult :=
  registerLoop lower cmds builtinRegistry

/-- A runfile command with the given name, an empty configuration, an empty scope
under an empty global scope and an empty script. -/
def plainCmd (name : String) : RunCmd :=
  { Name := name
    Config := { Shell := "", Desc := [], Usages := [], Opts := [] }
    Scope := .child [] (.root [])
    Script := [] }

/-- The panic message of a registration outcome, `none` when it completed. -/
def RegisterResult.message : RegisterResult → Option String
  | .ok _ => none
  | .panicked msg _ => some msg

/-- The names in `config.CommandList`, in order, as the registration left it. -/
def RegisterResult.names : RegisterResult → List String
  | .ok reg => reg.CommandList.map fun cmd => cmd.Name
  | .panicked _ reg => reg.CommandList.map fun cmd => cmd.Name

/-- The lower-cased names of the runfile commands, in source order. -/
def lowerNames (lower : String → String) (cmds : List RunCmd) : List String :=
  cmds.map fun c => lower c.Name

/-! ## command.go : evaluateCmdOpts, registration of the flags (lines 184-230)

`command.go` reads the options through the fields `short`, `long`, `value`, `name` of
its own option record, whose declaration is not among the sources; `RunCmdOpt` of
`runfile.go` carries the same fields and stands for it. -/

/-- Go `strings.EqualFold` against an ASCII word without `k` and `s` (the two ASCII
letters with a further case-fold partner), as `"help"` is: the runes of such a word
fold only to their other-case ASCII letter, so equality under folding is equality of
the ASCII lower-casings. -/
def equalFold (s t : String) : Bool :=
  asciiLower s == asciiLower t

/-- The value a flag is bound to: the `stringOpt` or `boolOpt` created for the option
of the given name, or the local variable `help`. -/
inductive FlagValue where
  | stringOpt (name : String)
  | boolOpt (name : String)
  | help
  deriving DecidableEq, Repr

/-- Go `flag.FlagSet`: its name and the flags defined so far, in definition order. -/
structure FlagSet where
  name : String
  formal : List (String × FlagValue)
  deriving DecidableEq, Repr

/-- The value `(*FlagSet).Var` panics with: the name begins with `-`
(`flag %q begins with -`), the name contains `=` (`flag %q contains =`), or a flag of
that name is already defined in the flag set of the given name
(`<flag set> flag redefined: <name>`). -/
inductive FlagPanic where
  | beginsWithDash (name : String)
  | containsEquals (name : String)
  | redefined (flagSet : String) (name : String)
  deriving DecidableEq, Repr

/-- Go `(*FlagSet).Var` (also reached through `BoolVar`): it panics when
`strings.HasPrefix(name, "-")`, else when `strings.Contains(name, "=")`, else when a
flag of that name is already defined; otherwise the flag is recorded. -/
def FlagSet.Var (f : FlagSet) (value : FlagValue) (name : String) :
    Except FlagPanic FlagSet :=
  if hasPrefix name "-" then .error (.beginsWithDash name)
  else if name.data.contains '=' then .error (.containsEquals name)
  else if f.formal.any (fun entry => entry.1 == name) then .error (.redefined f.name name)
  else .ok { f with formal := f.formal ++ [(name, value)] }

/-- The variables of `evaluateCmdOpts` that its option loop updates. -/
structure OptsState where
  hasHelpShort : Bool
  hasHelpLong : Bool
  flags : FlagSet
  deriving DecidableEq, Repr

/-- Body of the loop `for _, opt := range cmd.config.opts` (lines 189-224); `lower` is
Go `strings.ToLower`. -/
def evaluateCmdOptsStep (lower : String → String) (st : OptsState) (opt : RunCmdOpt) :
    Except FlagPanic OptsState :=
  let hasHelpShort := if opt.Short = 'h' then true else st.hasHelpShort
  let hasHelpLong := if equalFold opt.Long "help" then true else st.hasHelpLong
  let flag :=
    if opt.Value.length > 0 then FlagValue.stringOpt opt.Name
    else FlagValue.boolOpt opt.Name
  match (if opt.Short ≠ Char.ofNat 0 then st.flags.Var flag (String.singleton opt.Short)
         else .ok st.flags) with
  | .error p => .error p
  | .ok flags =>
    match (if opt.Long.length > 0 then flags.Var flag (lower opt.Long)
           else .ok flags) with
    | .error p => .error p
    | .ok flags =>
      .ok { hasHelpShort := hasHelpShort, hasHelpLong := hasHelpLong, flags := flags }

/-- The loop `for _, opt := range cmd.config.opts`. -/
def evaluateCmdOptsLoop (lower : String → String) :
    List RunCmdOpt → OptsState → Except FlagPanic OptsState
  | [], st => .ok st
  | opt :: rest, st =>
    match evaluateCmdOptsStep lower st opt with
    | .error p => .error p
    | .ok st => evaluateCmdOptsLoop lower rest st

/-- Lines 170 and 184-230 of `evaluateCmdOpts`: the flag set of a command once its
declared options and the implicit help switches are registered, or the panic of
`(*FlagSet).Var`; `lower` is Go `strings.ToLower`. -/
def evaluateCmdOptsFlags (lower : String → String) (cmdName : String)
    (opts : List RunCmdOpt) : Except FlagPanic FlagSet :=
  match evaluateCmdOptsLoop lower opts
      { hasHelpShort := false, hasHelpLong := false,
        flags := { name := cmdName, formal := [] } } with
  | .error p => .error p
  | .ok st =>
    match (if !st.hasHelpShort then st.flags.Var .help "h" else .ok st.flags) with
    | .error p => .error p
    | .ok flags =>
      if !st.hasHelpLong then flags.Var .help "help" else .ok flags

/-- An option with the given name, short form and long form, no value placeholder
and no description. -/
def switchOpt (name : String) (short : Char) (long : String) : RunCmdOpt :=
  { Name := name, Short := short, Long := long, Value := "", Desc := "" }

/-- The flag value the option loop creates for an option: a `stringOpt` when the
option has a value placeholder, a `boolOpt` otherwise. -/
def optFlagValue (opt : RunCmdOpt) : FlagValue :=
  if opt.Value.length > 0 then FlagValue.stringOpt opt.Name
  else FlagValue.boolOpt opt.Name

/-- The flags one declared option asks for: its short form, then its lower-cased long
form, each when present. -/
def optFlags (lower : String → String) (opt : RunCmdOpt) : List (String × FlagValue) :=
  (if opt.Short ≠ Char.ofNat 0 then [(String.singleton opt.Short, optFlagValue opt)] else [])
    ++ (if opt.Long.length > 0 then [(lower opt.Long, optFlagValue opt)] else [])

/-- The flags the declared options ask for, in declaration order. -/
def declaredFlags (lower : String → String) : List RunCmdOpt → List (String × FlagValue)
  | [] => []
  | opt :: rest => optFlags lower opt ++ declaredFlags lower rest

/-- Spec wording: some declared option has the short form `h`. -/
def declaresShortH (opts : List RunCmdOpt) : Bool :=
  opts.any fun opt => decide (opt.Short = 'h')

/-- Spec wording: some declared option has a long form equal to `help` ignoring
letter case. -/
def declaresLongHelp (opts : List RunCmdOpt) : Bool :=
  opts.any fun opt => equalFold opt.Long "help"

/-- The implicit help switches that the declared options do not suppress: `h` unless
a short `h` is declared, then `help` unless a long `help` is declared. -/
def implicitHelpFlags (opts : List RunCmdOpt) : List (String × FlagValue) :=
  (if declaresShortH opts then [] else [("h", FlagValue.help)])
    ++ (if declaresLongHelp opts then [] else [("help", FlagValue.help)])

/-- A flag name that `(*FlagSet).Var` accepts: it does not begin with `-` and holds
no `=`. -/
def flagNameOk (name : String) : Bool :=
  !(hasPrefix name "-") && !(name.data.contains '=')

/-! ## command.go : boolOpt -/

/-- Go `*strconv.NumError` as returned by `strconv.ParseBool`: the function name and
the rejected input (the wrapped error is always `strconv.ErrSyntax`). -/
structure NumError where
  Func : String
  Num : String
  deriving DecidableEq, Repr

/-- Go `strconv.ParseBool`: accepts `1, t, T, TRUE, true, True` as true and
`0, f, F, FALSE, false, False` as false, and rejects every other string. -/
def parseBool (str : String) : Except NumError Bool :=
  if str ∈ ["1", "t", "T", "true", "TRUE", "True"] then .ok true
  else if str ∈ ["0", "f", "F", "false", "FALSE", "False"] then .ok false
  else .error { Func := "ParseBool", Num := str }

/-- Source `boolOpt`; `value` is a `*bool`, here the pointed-to boolean, or `none` for
the nil pointer. -/
structure boolOpt where
  name : String
  value : Option Bool
  set : Bool
  deriving DecidableEq, Repr

/-- Source `boolOpt.Name`. -/
def boolOpt.Name (a : boolOpt) : String :=
  a.name

/-- Source `boolOpt.IsSet`. -/
def boolOpt.IsSet (a : boolOpt) : Bool :=
  a.set

/-- Source `boolOpt.IsBoolFlag`. -/
def boolOpt.IsBoolFlag (_a : boolOpt) : Bool :=
  true

/-- Outcome of `boolOpt.Set`, each with the receiver as the call leaves it: `nil` is
returned, an error is returned, or the store through a nil `value` pointer panics. -/
inductive SetResult where
  | ok (a : boolOpt)
  | error (err : NumError) (a : boolOpt)
  | nilDereference (a : boolOpt)
  deriving DecidableEq, Repr

/-- Source `boolOpt.Set`. -/
def boolOpt.Set (a : boolOpt) (value : String) : SetResult :=
  match parseBool value with
  | .error err => .error err a
  | .ok b =>
    match a.value with
    | none => .nilDereference a
    | some _ => .ok { a with value := some b, set := true }

/-- Source `boolOpt.String`. -/
def boolOpt.String (a : boolOpt) : String :=
  match a.value with
  | none => ""
  | some b => if !b then "" else "1"

/-- The `boolOpt` that `evaluateCmdOpts` creates for an option:
`&boolOpt{name: optName, value: new(bool)}`. -/
def newBoolOpt (optName : String) : boolOpt :=
  { name := optName, value := some false, set := false }

/-- The boolean literals of `strconv.ParseBool`. -/
def boolLiterals : List String :=
  ["1", "t", "T", "TRUE", "true", "True", "0", "f", "F", "FALSE", "false", "False"]

/-! ## command.go : showCmdUsage, the implicit help entry (lines 291-316) -/

/-- The loop `for _, opt := range cmd.config.opts` of `showCmdUsage` (lines 293-300),
from the current values of `hasHelpShort` and `hasHelpLong` to their final values. -/
def showCmdUsageScan : List RunCmdOpt → Bool → Bool → Bool × Bool
  | [], hasHelpShort, hasHelpLong => (hasHelpShort, hasHelpLong)
  | opt :: rest, hasHelpShort, hasHelpLong =>
    showCmdUsageScan rest
      (if opt.Short = 'h' then true else hasHelpShort)
      (if opt.Long = "help" then true else hasHelpLong)

/-- Lines 291-316 of `showCmdUsage`: the lines it writes to `errOut` between the usage
patterns and the declared options, namely `Options:` and the implicit help entry. -/
def showCmdUsageHelpLines (opts : List RunCmdOpt) : List String :=
  match showCmdUsageScan opts false false with
  | (hasHelpShort, hasHelpLong) =>
    if opts.length > 0 then
      "Options:" ::
        (if !hasHelpShort || !hasHelpLong then
          [ (if !hasHelpShort && hasHelpLong then "  -h"
             else if hasHelpShort && !hasHelpLong then "  --help"
             else "  -h, --help"),
            "        Show full help screen" ]
         else [])
    else []

/-- Spec wording: the help screen lists `-h` as an implicit help alias. -/
def advertisesShortHelp (lines : List String) : Bool :=
  lines.contains "  -h" || lines.contains "  -h, --help"

/-- Spec wording: the help screen lists `--help` as an implicit help alias. -/
def advertisesLongHelp (lines : List String) : Bool :=
  lines.contains "  --help" || lines.contains "  -h, --help"

/-- Some declared option has the long form `help`, letter for letter: the test
`opt.long == "help"` of `showCmdUsage`. -/
def declaresLongHelpExact (opts : List RunCmdOpt) : Bool :=
  opts.any fun opt => decide (opt.Long = "help")

/-! ## Specification-side vocabulary for the normalisation claims -/

/-- Spec wording: the lines of `txt` with the maximal leading and trailing runs of
whitespace-only lines removed. -/
def trimmedLines (txt : List String) : List String :=
  (txt.dropWhile isLineWhitespaceOnly).rdropWhile isLineWhitespaceOnly

/-- Spec wording: the maximal run of leading whitespace characters of a line. -/
def leadingWhitespace (line : String) : List Char :=
  line.data.takeWhile isWhitespace

/-- Spec wording: the line with the prefix `p` removed when it starts with `p`, and
the line unchanged otherwise. -/
def removePrefix (p : List Char) (line : String) : String :=
  if p <+: line.data then ⟨line.data.drop p.length⟩ else line

/-- Spec wording: every line of `d` with the leading whitespace of `d[0]` removed
when the line starts with it. -/
def strippedLines : List String → List String
  | [] => []
  | first :: rest => (first :: rest).map (removePrefix (leadingWhitespace first))

/-! ## Lemmas on the loops -/

theorem isLineWhitespaceOnlyLoop_eq_all (l : List Char) :
    isLineWhitespaceOnlyLoop l = l.all isWhitespace := by
  induction l with
  | nil => rfl
  | cons r rest ih =>
    cases h : isWhitespace r <;> simp [isLineWhitespaceOnlyLoop, h, ih]

theorem isLineWhitespaceOnly_iff (line : String) :
    isLineWhitespaceOnly line = true ↔ ∀ r ∈ line.data, isWhitespace r = true := by
  simp [isLineWhitespaceOnly, isLineWhitespaceOnlyLoop_eq_all]

theorem dropLeadingBlank_eq_dropWhile (txt : List String) :
    dropLeadingBlank txt = txt.dropWhile isLineWhitespaceOnly := by
  induction txt with
  | nil => rfl
  | cons line rest ih =>
    cases h : isLineWhitespaceOnly line <;> simp [dropLeadingBlank, List.dropWhile, h, ih]

theorem take_trailingBlankLen (txt : List String) :
    ∀ n, n ≤ txt.length →
      txt.take (trailingBlankLen txt n) = (txt.take n).rdropWhile isLineWhitespaceOnly := by
  intro n
  induction n with
  | zero => intro _; simp [trailingBlankLen]
  | succ n ih =>
    intro hn
    have hlt : n < txt.length := hn
    have hget : txt.get? n = some (txt.get ⟨n, hlt⟩) := List.get?_eq_get hlt
    have htake : txt.take (n + 1) = txt.take n ++ [txt.get ⟨n, hlt⟩] := by
      rw [List.take_succ, ← List.get?_eq_getElem?, hget]
      rfl
    rw [htake]
    cases h : isLineWhitespaceOnly (txt.get ⟨n, hlt⟩)
    · rw [List.rdropWhile_concat_neg _ _ _ (by rw [h]; exact Bool.false_ne_true)]
      simp only [trailingBlankLen, hget, h]
      exact htake
    · rw [List.rdropWhile_concat_pos _ _ _ h]
      simp only [trailingBlankLen, hget, h, if_true]
      exact ih (Nat.le_of_lt hlt)

theorem dropTrailingBlank_eq_rdropWhile (txt : List String) :
    dropTrailingBlank txt = txt.rdropWhile isLineWhitespaceOnly := by
  unfold dropTrailingBlank
  rw [take_trailingBlankLen txt txt.length (Nat.le_refl _), List.take_length]

theorem normalizeCmdDesc_eq_trimmedLines (txt : List String) :
    normalizeCmdDesc txt = trimmedLines txt := by
  unfold normalizeCmdDesc trimmedLines
  split
  · next h =>
    have : txt = [] := List.length_eq_zero.mp h
    subst this
    simp
  · rw [dropTrailingBlank_eq_rdropWhile, dropLeadingBlank_eq_dropWhile]

theorem trimmedLines_head_not_blank (txt : List String) (first : String)
    (rest : List String) (h : trimmedLines txt = first :: rest) :
    isLineWhitespaceOnly first = false := by
  have hpre : trimmedLines txt <+: txt.dropWhile isLineWhitespaceOnly :=
    List.rdropWhile_prefix _ _
  rw [h] at hpre
  obtain ⟨t, ht⟩ := hpre
  have hne : txt.dropWhile isLineWhitespaceOnly ≠ [] := by
    rw [← ht]; simp
  have hnot := List.head_dropWhile_not isLineWhitespaceOnly txt hne
  have hhead : (txt.dropWhile isLineWhitespaceOnly).head hne = first := by
    simp [← ht]
  rw [hhead] at hnot
  exact hnot

theorem trimmedLines_getLast_not_blank (txt : List String) (h : trimmedLines txt ≠ []) :
    isLineWhitespaceOnly ((trimmedLines txt).getLast h) = false := by
  have := List.rdropWhile_last_not isLineWhitespaceOnly
    (txt.dropWhile isLineWhitespaceOnly) h
  simpa [trimmedLines] using this

theorem leadingWhitespaceScan_eq (l : List Char) :
    ∀ i, l.all isWhitespace = false →
      leadingWhitespaceScan l i = some (i + (l.takeWhile isWhitespace).length) := by
  induction l with
  | nil => intro i h; simp at h
  | cons r rest ih =>
    intro i h
    cases hr : isWhitespace r
    · simp [leadingWhitespaceScan, List.takeWhile, hr]
    · have hrest : rest.all isWhitespace = false := by
        rw [List.all_cons, hr, Bool.true_and] at h
        exact h
      simp only [leadingWhitespaceScan, hr, if_true, List.takeWhile, List.length_cons]
      rw [ih (i + 1) hrest]
      congr 1
      omega

theorem take_length_takeWhile (l : List Char) :
    l.take (l.takeWhile isWhitespace).length = l.takeWhile isWhitespace := by
  have h : l.takeWhile isWhitespace <+: l := List.takeWhile_prefix _
  exact (List.prefix_iff_eq_take.mp h).symm

theorem stripLeadingWS_eq_removePrefix (p : List Char) (line : String) :
    stripLeadingWS ⟨p⟩ line = removePrefix p line := by
  unfold stripLeadingWS removePrefix hasPrefix sliceFrom
  by_cases h : p <+: line.data
  · have h2 : p.isPrefixOf line.data = true := List.isPrefixOf_iff_prefix.mpr h
    simp [h, h2, String.length]
  · have h2 : ¬ (p.isPrefixOf line.data = true) := fun hc => h (List.isPrefixOf_iff_prefix.mp hc)
    simp [h, h2]

theorem removePrefix_nil (line : String) : removePrefix [] line = line := by
  simp [removePrefix]

/-- Closed form of `normalizeCmdScript`: it never panics, and its result is the trimmed
lines with the first line's leading whitespace stripped. -/
theorem normalizeCmdScript_eq (txt : List String) :
    normalizeCmdScript txt = some (strippedLines (trimmedLines txt)) := by
  unfold normalizeCmdScript
  split
  · next h =>
    have : txt = [] := List.length_eq_zero.mp h
    subst this
    simp [trimmedLines, strippedLines]
  · rw [dropTrailingBlank_eq_rdropWhile, dropLeadingBlank_eq_dropWhile]
    change (match trimmedLines txt with
      | [] => some (trimmedLines txt)
      | first :: _ =>
        match leadingWhitespaceScan first.data 0 with
        | none => none
        | some i =>
          if i > 0 then some ((trimmedLines txt).map (stripLeadingWS ⟨first.data.take i⟩))
          else some (trimmedLines txt)) = _
    cases hd : trimmedLines txt with
    | nil => simp [strippedLines]
    | cons first rest =>
      have hnb := trimmedLines_head_not_blank txt first rest hd
      have hall : first.data.all isWhitespace = false := by
        rw [← isLineWhitespaceOnlyLoop_eq_all]; exact hnb
      simp only [leadingWhitespaceScan_eq first.data 0 hall, Nat.zero_add, strippedLines,
        leadingWhitespace]
      split
      · rw [take_length_takeWhile]
        congr 1
        apply List.map_congr_left
        intro line _
        exact stripLeadingWS_eq_removePrefix _ line
      · next hz =>
        have hnil : first.data.takeWhile isWhitespace = [] := by
          apply List.length_eq_zero.mp
          omega
        rw [hnil]
        congr 1
        have : removePrefix [] = id := funext removePrefix_nil
        rw [this, List.map_id]

theorem trimmedLines_eq_self (l : List String)
    (hh : ∀ first rest, l = first :: rest → isLineWhitespaceOnly first = false)
    (hl : ∀ h : l ≠ [], isLineWhitespaceOnly (l.getLast h) = false) :
    trimmedLines l = l := by
  have h1 : l.dropWhile isLineWhitespaceOnly = l := by
    cases l with
    | nil => rfl
    | cons first rest => simp [List.dropWhile, hh first rest rfl]
  unfold trimmedLines
  rw [h1]
  apply List.rdropWhile_eq_self_iff.mpr
  intro hne
  rw [hl hne]
  exact Bool.false_ne_true

theorem trimmedLines_idem (txt : List String) :
    trimmedLines (trimmedLines txt) = trimmedLines txt :=
  trimmedLines_eq_self _ (fun first rest h => trimmedLines_head_not_blank txt first rest h)
    (fun h => trimmedLines_getLast_not_blank txt h)

theorem removePrefix_blank (p : List Char) (hp : ∀ c ∈ p, isWhitespace c = true)
    (line : String) :
    isLineWhitespaceOnly (removePrefix p line) = isLineWhitespaceOnly line := by
  unfold removePrefix
  split
  · next h =>
    obtain ⟨t, ht⟩ := h
    simp only [isLineWhitespaceOnly, isLineWhitespaceOnlyLoop_eq_all, ← ht,
      List.drop_left, List.all_append]
    have : p.all isWhitespace = true := List.all_eq_true.mpr hp
    rw [this, Bool.true_and]
  · rfl

theorem leadingWhitespace_all (line : String) :
    ∀ c ∈ leadingWhitespace line, isWhitespace c = true := by
  intro c hc
  exact (List.mem_takeWhile_imp hc)

theorem takeWhile_dropWhile_nil (l : List Char) :
    (l.dropWhile isWhitespace).takeWhile isWhitespace = [] := by
  induction l with
  | nil => rfl
  | cons r rest ih =>
    cases hr : isWhitespace r
    · simp [List.dropWhile, List.takeWhile, hr]
    · simp [List.dropWhile, hr, ih]

theorem leadingWhitespace_removePrefix_self (line : String) :
    leadingWhitespace (removePrefix (leadingWhitespace line) line) = [] := by
  have hsplit : line.data.takeWhile isWhitespace ++ line.data.dropWhile isWhitespace
      = line.data := List.takeWhile_append_dropWhile _ _
  have hpre : leadingWhitespace line <+: line.data := List.takeWhile_prefix _
  unfold removePrefix
  rw [if_pos hpre]
  unfold leadingWhitespace
  have hdrop : line.data.drop (line.data.takeWhile isWhitespace).length
      = line.data.dropWhile isWhitespace := by
    have := @List.drop_left Char (line.data.takeWhile isWhitespace)
      (line.data.dropWhile isWhitespace)
    rw [hsplit] at this
    exact this
  simp only [hdrop]
  exact takeWhile_dropWhile_nil _

/-- The lines `normalizeCmdScript` returns start with a line that is not blank and
carries no leading whitespace. -/
theorem strippedLines_head (txt : List String) (first : String) (rest : List String)
    (h : strippedLines (trimmedLines txt) = first :: rest) :
    isLineWhitespaceOnly first = false ∧ leadingWhitespace first = [] := by
  cases hd : trimmedLines txt with
  | nil => rw [hd] at h; simp [strippedLines] at h
  | cons f r =>
    rw [hd] at h
    simp only [strippedLines, List.map_cons, List.cons.injEq] at h
    obtain ⟨h1, _⟩ := h
    subst h1
    refine ⟨?_, leadingWhitespace_removePrefix_self f⟩
    rw [removePrefix_blank _ (leadingWhitespace_all f)]
    exact trimmedLines_head_not_blank txt f r hd

/-- The lines `normalizeCmdScript` returns end with a line that is not blank. -/
theorem strippedLines_getLast (txt : List String)
    (h : strippedLines (trimmedLines txt) ≠ []) :
    isLineWhitespaceOnly ((strippedLines (trimmedLines txt)).getLast h) = false := by
  have hne : trimmedLines txt ≠ [] := by
    intro hc; rw [hc] at h; exact h rfl
  have hlast := trimmedLines_getLast_not_blank txt hne
  revert h hlast hne
  cases hd : trimmedLines txt with
  | nil => intro _ hne _; exact absurd rfl hne
  | cons f r =>
    intro h hne hlast
    have hmap : strippedLines (f :: r) = (f :: r).map (removePrefix (leadingWhitespace f)) := rfl
    have hl : (strippedLines (f :: r)).getLast h
        = removePrefix (leadingWhitespace f) ((f :: r).getLast hne) := by
      simp only [hmap]
      rw [List.getLast_map]
    rw [hl, removePrefix_blank _ (leadingWhitespace_all f)]
    exact hlast

theorem strippedLines_fixed (txt : List String) :
    strippedLines (trimmedLines (strippedLines (trimmedLines txt)))
      = strippedLines (trimmedLines txt) := by
  rw [trimmedLines_eq_self _ (fun first rest h => (strippedLines_head txt first rest h).1)
    (fun h => strippedLines_getLast txt h)]
  cases hout : strippedLines (trimmedLines txt) with
  | nil => rfl
  | cons first rest =>
    have hp := (strippedLines_head txt first rest hout).2
    simp only [strippedLines, hp]
    have : removePrefix [] = id := funext removePrefix_nil
    rw [this, List.map_id]

theorem rdropWhile_append_blank (l : List String) :
    ∃ b : List String, (∀ x ∈ b, isLineWhitespaceOnly x = true) ∧
      l = l.rdropWhile isLineWhitespaceOnly ++ b := by
  refine ⟨(l.reverse.takeWhile isLineWhitespaceOnly).reverse, ?_, ?_⟩
  · intro x hx
    exact List.mem_takeWhile_imp (List.mem_reverse.mp hx)
  · unfold List.rdropWhile
    rw [← List.reverse_append, List.takeWhile_append_dropWhile, List.reverse_reverse]

/-! ## Claims on text normalisation -/

/-- C1: when the trimmed lines `d` of `txt` are not empty and `p` is the leading
whitespace of `d[0]`, `normalizeCmdScript txt` succeeds with as many lines as `d`, its
`j`-th line is `d[j]` with the prefix `p` removed when `d[j]` starts with `p` and is
`d[j]` unchanged otherwise, and with `p` empty every line is unchanged. -/
theorem normalizeCmdScript_strips_indent (txt : List String)
    (hd : trimmedLines txt ≠ []) :
    ∃ out, normalizeCmdScript txt = some out ∧
      out.length = (trimmedLines txt).length ∧
      (∀ (j : Nat) (hj : j < (trimmedLines txt).length),
        out.get? j = some
          (if leadingWhitespace ((trimmedLines txt).head hd)
                <+: ((trimmedLines txt).get ⟨j, hj⟩).data
           then ⟨((trimmedLines txt).get ⟨j, hj⟩).data.drop
                  (leadingWhitespace ((trimmedLines txt).head hd)).length⟩
           else (trimmedLines txt).get ⟨j, hj⟩)) ∧
      (leadingWhitespace ((trimmedLines txt).head hd) = [] → out = trimmedLines txt) := by
  refine ⟨_, normalizeCmdScript_eq txt, ?_⟩
  revert hd
  cases hdl : trimmedLines txt with
  | nil => intro hd; exact absurd rfl hd
  | cons first rest =>
    intro hd
    have hmap : strippedLines (first :: rest)
        = (first :: rest).map (removePrefix (leadingWhitespace first)) := rfl
    rw [hmap]
    refine ⟨by simp, ?_, ?_⟩
    · intro j hj
      rw [List.get?_eq_getElem?, List.getElem?_map, List.getElem?_eq_getElem hj]
      rfl
    · intro hp
      simp only [List.head_cons] at hp
      rw [hp]
      have : removePrefix [] = id := funext removePrefix_nil
      rw [this, List.map_id]

/-- C1, at the input of the claim: `["  a", "  \tb", " c"]` normalises to
`["a", "\tb", " c"]`. -/
theorem normalizeCmdScript_strips_indent_witness :
    trimmedLines ["  a", "  \tb", " c"] ≠ [] ∧
    normalizeCmdScript ["  a", "  \tb", " c"] = some ["a", "\tb", " c"] ∧
    ∃ out, normalizeCmdScript ["  a", "  \tb", " c"] = some out ∧
      out.length = (trimmedLines ["  a", "  \tb", " c"]).length :=
  ⟨by decide, by decide,
    (normalizeCmdScript_strips_indent ["  a", "  \tb", " c"] (by decide)).imp
      fun _ h => ⟨h.1, h.2.1⟩⟩

/-- C2: normalisation is idempotent: `normalizeCmdScript` succeeds and returns a list
it maps to itself, and `normalizeCmdDesc` applied twice is `normalizeCmdDesc`. -/
theorem normalize_idempotent (txt : List String) :
    (∃ out, normalizeCmdScript txt = some out ∧ normalizeCmdScript out = some out) ∧
    normalizeCmdDesc (normalizeCmdDesc txt) = normalizeCmdDesc txt := by
  refine ⟨⟨_, normalizeCmdScript_eq txt, ?_⟩, ?_⟩
  · rw [normalizeCmdScript_eq, strippedLines_fixed]
  · simp only [normalizeCmdDesc_eq_trimmedLines, trimmedLines_idem]

/-- C3: the result of `normalizeCmdScript` (after the indentation prefix is stripped)
and the result of `normalizeCmdDesc` are each empty or have a first and a last line
that are not whitespace-only. -/
theorem normalize_no_blank_ends (txt : List String) :
    (∃ out, normalizeCmdScript txt = some out ∧
      (out = [] ∨ ∃ h : out ≠ [],
        isLineWhitespaceOnly (out.head h) = false ∧
        isLineWhitespaceOnly (out.getLast h) = false)) ∧
    (normalizeCmdDesc txt = [] ∨ ∃ h : normalizeCmdDesc txt ≠ [],
        isLineWhitespaceOnly ((normalizeCmdDesc txt).head h) = false ∧
        isLineWhitespaceOnly ((normalizeCmdDesc txt).getLast h) = false) := by
  constructor
  · refine ⟨_, normalizeCmdScript_eq txt, ?_⟩
    by_cases hne : strippedLines (trimmedLines txt) = []
    · exact Or.inl hne
    · refine Or.inr ⟨hne, ?_, strippedLines_getLast txt hne⟩
      obtain ⟨first, rest, hfr⟩ := List.exists_cons_of_ne_nil hne
      have := (strippedLines_head txt first rest hfr).1
      simpa [hfr] using this
  · rw [normalizeCmdDesc_eq_trimmedLines]
    by_cases hne : trimmedLines txt = []
    · exact Or.inl hne
    · refine Or.inr ⟨hne, ?_, trimmedLines_getLast_not_blank txt hne⟩
      obtain ⟨first, rest, hfr⟩ := List.exists_cons_of_ne_nil hne
      have := trimmedLines_head_not_blank txt first rest hfr
      simpa [hfr] using this

/-- C4: `normalizeCmdDesc` removes only leading and trailing whitespace-only lines:
`txt = a ++ normalizeCmdDesc txt ++ b` for lists `a`, `b` of whitespace-only lines. -/
theorem normalizeCmdDesc_only_trims (txt : List String) :
    ∃ a b : List String,
      (∀ line ∈ a, isLineWhitespaceOnly line = true) ∧
      (∀ line ∈ b, isLineWhitespaceOnly line = true) ∧
      txt = a ++ normalizeCmdDesc txt ++ b := by
  obtain ⟨b, hb, hsplit⟩ := rdropWhile_append_blank (txt.dropWhile isLineWhitespaceOnly)
  refine ⟨txt.takeWhile isLineWhitespaceOnly, b, ?_, hb, ?_⟩
  · intro line hline
    exact List.mem_takeWhile_imp hline
  · rw [normalizeCmdDesc_eq_trimmedLines, List.append_assoc]
    unfold trimmedLines
    rw [← hsplit, List.takeWhile_append_dropWhile]

/-- C5: a script whose lines are all empty or made of space, tab, LF and CR only
(the empty script included) normalises to the empty list, without a panic. -/
theorem normalizeCmdScript_all_blank (txt : List String)
    (h : ∀ line ∈ txt, ∀ c ∈ line.data, c = ' ' ∨ c = '\t' ∨ c = '\n' ∨ c = '\r') :
    normalizeCmdScript txt = some [] := by
  have hblank : ∀ line ∈ txt, isLineWhitespaceOnly line = true := by
    intro line hline
    rw [isLineWhitespaceOnly_iff]
    intro c hc
    rcases h line hline c hc with rfl | rfl | rfl | rfl <;> rfl
  have hdrop : txt.dropWhile isLineWhitespaceOnly = [] :=
    List.dropWhile_eq_nil_iff.mpr hblank
  rw [normalizeCmdScript_eq]
  simp [trimmedLines, hdrop, strippedLines]

/-- C5, at a concrete input: three blank lines normalise to the empty list. -/
theorem normalizeCmdScript_all_blank_witness :
    (∀ line ∈ ["", " \t", "\r\n "], ∀ c ∈ line.data,
      c = ' ' ∨ c = '\t' ∨ c = '\n' ∨ c = '\r') ∧
    normalizeCmdScript ["", " \t", "\r\n "] = some [] :=
  ⟨by decide, normalizeCmdScript_all_blank _ (by decide)⟩

/-! ## Lemmas on command registration -/

theorem foldl_add_commandList (lower : String → String) (cmds : List RunCmd) :
    ∀ reg : Registry,
      (cmds.foldl (Registry.add lower) reg).CommandList = reg.CommandList ++ cmds.map mkCommand := by
  induction cmds with
  | nil => intro reg; simp
  | cons c rest ih =>
    intro reg
    rw [List.foldl_cons, ih]
    simp [Registry.add]

theorem foldl_add_commandMap_of_not_mem (lower : String → String) (cmds : List RunCmd) (x : String) :
    ∀ reg : Registry, x ∉ lowerNames lower cmds →
      (cmds.foldl (Registry.add lower) reg).CommandMap x = reg.CommandMap x := by
  induction cmds with
  | nil => intro reg _; rfl
  | cons c rest ih =>
    intro reg hx
    have hx1 : x ≠ lower c.Name := fun hc => hx (by simp [lowerNames, hc])
    have hx2 : x ∉ lowerNames lower rest := fun hc => hx (by
      simp only [lowerNames, List.map_cons, List.mem_cons]
      exact Or.inr hc)
    rw [List.foldl_cons, ih _ hx2]
    simp [Registry.add, mapSet, hx1]

theorem nodup_get_not_mem_take (l : List String) :
    ∀ (i : Nat) (x : String), l.Nodup → l.get? i = some x → x ∉ l.take i := by
  induction l with
  | nil => intro i x _ h; simp at h
  | cons a t ih =>
    intro i x hnd hget
    cases i with
    | zero => simp
    | succ i =>
      have hnd2 := List.nodup_cons.mp hnd
      have hget2 : t.get? i = some x := by simpa using hget
      have hxt : x ∈ t := List.get?_mem hget2
      have hxa : x ≠ a := fun hc => hnd2.1 (hc ▸ hxt)
      simp only [List.take_succ_cons, List.mem_cons, not_or]
      exact ⟨hxa, ih i x hnd2.2 hget2⟩

/-- When no command name clashes with a key that is already registered or with an
earlier name, the loop completes and has run its body on every command. -/
theorem registerLoop_ok (lower : String → String) (cmds : List RunCmd) :
    ∀ reg : Registry,
      (∀ i x, (lowerNames lower cmds).get? i = some x →
        reg.CommandMap x = none ∧ x ∉ (lowerNames lower cmds).take i) →
      registerLoop lower cmds reg = .ok (cmds.foldl (Registry.add lower) reg) := by
  induction cmds with
  | nil => intro reg _; rfl
  | cons c rest ih =>
    intro reg h
    have h0 := (h 0 (lower c.Name) rfl).1
    simp only [registerLoop, h0, List.foldl_cons]
    apply ih
    intro i x hget
    have hs := h (i + 1) x (by simpa [lowerNames] using hget)
    have hne : x ≠ lower c.Name := by
      intro hc
      apply hs.2
      simp [lowerNames, hc]
    refine ⟨?_, ?_⟩
    · simp [Registry.add, mapSet, hne, hs.1]
    · intro hc
      apply hs.2
      simp only [lowerNames, List.map_cons, List.take_succ_cons, List.mem_cons]
      exact Or.inr hc

/-- When the `k`-th command is the first whose lower-cased name is already a key of
the map or the name of an earlier command, the loop panics there, with the registry
that its body has built from the first `k` commands. -/
theorem registerLoop_panics (lower : String → String) (cmds : List RunCmd) :
    ∀ (reg : Registry) (k : Nat) (name : String),
      (lowerNames lower cmds).get? k = some name →
      (∀ i x, i < k → (lowerNames lower cmds).get? i = some x →
        reg.CommandMap x = none ∧ x ∉ (lowerNames lower cmds).take i) →
      (reg.CommandMap name ≠ none ∨ name ∈ (lowerNames lower cmds).take k) →
      registerLoop lower cmds reg
        = .panicked ("Duplicate command: " ++ name) ((cmds.take k).foldl (Registry.add lower) reg) := by
  induction cmds with
  | nil => intro reg k name h; simp [lowerNames] at h
  | cons c rest ih =>
    intro reg k name hget hbefore hclash
    cases k with
    | zero =>
      have hname : lower c.Name = name := by simpa [lowerNames] using hget
      have hsome : reg.CommandMap name ≠ none := by
        rcases hclash with h | h
        · exact h
        · simp at h
      obtain ⟨v, hv⟩ := Option.ne_none_iff_exists'.mp hsome
      simp only [registerLoop, hname, hv, List.take_zero, List.foldl_nil]
    | succ k =>
      have h0 := (hbefore 0 (lower c.Name) (Nat.succ_pos k) rfl).1
      simp only [registerLoop, h0, List.take_succ_cons, List.foldl_cons]
      apply ih
      · simpa [lowerNames] using hget
      · intro i x hi hx
        have hs := hbefore (i + 1) x (Nat.succ_lt_succ hi) (by simpa [lowerNames] using hx)
        have hne : x ≠ lower c.Name := by
          intro hc
          apply hs.2
          simp [lowerNames, hc]
        refine ⟨by simp [Registry.add, mapSet, hne, hs.1], ?_⟩
        intro hc
        apply hs.2
        simp only [lowerNames, List.map_cons, List.take_succ_cons, List.mem_cons]
        exact Or.inr hc
      · by_cases hn : name = lower c.Name
        · left
          simp [Registry.add, mapSet, hn]
        · rcases hclash with h | h
          · left
            simpa [Registry.add, mapSet, hn] using h
          · right
            simp only [lowerNames, List.map_cons, List.take_succ_cons, List.mem_cons] at h
            rcases h with h | h
            · exact absurd h hn
            · exact h

theorem foldl_add_commandMap_of_mem (lower : String → String) (cmds : List RunCmd) :
    ∀ (reg : Registry) (c : RunCmd), (lowerNames lower cmds).Nodup → c ∈ cmds →
      (cmds.foldl (Registry.add lower) reg).CommandMap (lower c.Name) = some (mkCommand c) := by
  induction cmds with
  | nil => intro reg c _ hc; simp at hc
  | cons a rest ih =>
    intro reg c hnd hc
    have hnd2 : lower a.Name ∉ lowerNames lower rest ∧ (lowerNames lower rest).Nodup := by
      simpa [lowerNames] using hnd
    rw [List.foldl_cons]
    rcases List.mem_cons.mp hc with h | h
    · subst h
      rw [foldl_add_commandMap_of_not_mem lower rest _ _ hnd2.1]
      simp [Registry.add, mapSet]
    · exact ih _ c hnd2.2 h

theorem builtin_commandMap_none (x : String) (h : x ∉ ["list", "help"]) :
    builtinRegistry.CommandMap x = none := by
  have h1 : x ≠ "list" := fun hc => h (by simp [hc])
  have h2 : x ≠ "help" := fun hc => h (by simp [hc])
  simp [builtinRegistry, mapSet, h1, h2, Registry.initial]

theorem builtin_commandMap_some (x : String) (h : x ∈ ["list", "help"]) :
    builtinRegistry.CommandMap x ≠ none := by
  simp only [List.mem_cons, List.mem_singleton, List.not_mem_nil, or_false] at h
  rcases h with h | h <;> subst h <;> simp [builtinRegistry, mapSet]

theorem mkCommand_eq (c : RunCmd) :
    mkCommand c
      = { Name := c.Name, Title := c.Config.Desc.head?.getD "", Target := some c } := by
  unfold mkCommand RunCmd.Title
  cases c.Config.Desc <;> rfl

theorem nodup_take_of_not_mem_take (l : List String) :
    ∀ k : Nat, (∀ i x, i < k → l.get? i = some x → x ∉ l.take i) → (l.take k).Nodup := by
  induction l with
  | nil => intro k _; simp
  | cons a t ih =>
    intro k h
    cases k with
    | zero => simp
    | succ k =>
      rw [List.take_succ_cons, List.nodup_cons]
      constructor
      · intro hmem
        obtain ⟨n, hn⟩ := List.mem_iff_get?.mp hmem
        have hnk : n < k := by
          by_contra hge
          have hlen : (t.take k).length ≤ n := by
            rw [List.length_take]
            omega
          rw [List.get?_eq_none.mpr hlen] at hn
          exact Option.noConfusion hn
        have hget : t.get? n = some a := by
          rw [List.get?_eq_getElem?, List.getElem?_take_of_lt hnk,
            ← List.get?_eq_getElem?] at hn
          exact hn
        exact h (n + 1) a (Nat.succ_lt_succ hnk) (by simpa using hget) (by simp)
      · apply ih
        intro i x hi hx hc
        exact h (i + 1) x (Nat.succ_lt_succ hi) (by simpa using hx)
          (by simp only [List.take_succ_cons, List.mem_cons]; exact Or.inr hc)

/-! ## Claims on command registration -/

/-- C6: for runfile commands whose lower-cased names are pairwise distinct and differ
from `list` and `help`, the registration of `main` completes without a panic; the
command list is the two built-ins followed by the commands in source order, each
entry carrying the name, the title (first description line) and the closures' target
of its command, and every command is found in the command map under its lower-cased
name. `lower` is Go `strings.ToLower`. -/
theorem registerCommands_distinct_ok (lower : String → String) (cmds : List RunCmd)
    (hdistinct : (lowerNames lower cmds).Nodup)
    (hbuiltin : ∀ c ∈ cmds, lower c.Name ≠ "list" ∧ lower c.Name ≠ "help") :
    ∃ reg, registerCommands lower cmds = .ok reg ∧
      reg.CommandList = [listCmd, helpCmd] ++ cmds.map mkCommand ∧
      reg.CommandList.length = cmds.length + 2 ∧
      reg.CommandList.map (fun cmd => cmd.Name)
        = "list" :: "help" :: cmds.map (fun c => c.Name) ∧
      reg.CommandList.map (fun cmd => cmd.Title)
        = "(builtin) List available commands" :: "(builtin) Show Help for a command"
            :: cmds.map (fun c => c.Config.Desc.head?.getD "") ∧
      reg.CommandList.map (fun cmd => cmd.Target) = none :: none :: cmds.map some ∧
      reg.CommandMap "list"
        = some { Name := "list", Title := "(builtin) List available commands",
                 Target := none } ∧
      reg.CommandMap "help"
        = some { Name := "help", Title := "(builtin) Show Help for a command",
                 Target := none } ∧
      ∀ c ∈ cmds, reg.CommandMap (lower c.Name)
        = some { Name := c.Name, Title := c.Config.Desc.head?.getD "", Target := some c } := by
  have hnot : ∀ x ∈ lowerNames lower cmds, x ∉ ["list", "help"] := by
    intro x hx
    obtain ⟨c, hc, rfl⟩ := List.mem_map.mp hx
    have := hbuiltin c hc
    simp [this.1, this.2]
  have hlist : (cmds.foldl (Registry.add lower) builtinRegistry).CommandList
      = [listCmd, helpCmd] ++ cmds.map mkCommand := by
    rw [foldl_add_commandList]
    rfl
  refine ⟨cmds.foldl (Registry.add lower) builtinRegistry, ?_, hlist, ?_, ?_, ?_, ?_, ?_,
    ?_, ?_⟩
  · apply registerLoop_ok
    intro i x hget
    exact ⟨builtin_commandMap_none x (hnot x (List.get?_mem hget)),
      nodup_get_not_mem_take _ i x hdistinct hget⟩
  · rw [hlist]
    simp
  · rw [hlist]
    simp [listCmd, helpCmd, mkCommand_eq, Function.comp_def]
  · rw [hlist]
    simp [listCmd, helpCmd, mkCommand_eq, Function.comp_def]
  · rw [hlist]
    simp [listCmd, helpCmd, mkCommand_eq, Function.comp_def]
  · rw [foldl_add_commandMap_of_not_mem lower cmds "list" _
      (fun hc => hnot "list" hc (by simp))]
    rfl
  · rw [foldl_add_commandMap_of_not_mem lower cmds "help" _
      (fun hc => hnot "help" hc (by simp))]
    rfl
  · intro c hc
    rw [foldl_add_commandMap_of_mem lower cmds _ c hdistinct hc, mkCommand_eq]

/-- C6, at a concrete input: `Build` and `test` are registered after the built-ins,
`Build` under the key `build`. -/
theorem registerCommands_distinct_ok_witness :
    (lowerNames asciiLower [plainCmd "Build", plainCmd "test"]).Nodup ∧
    (∀ c ∈ [plainCmd "Build", plainCmd "test"],
      asciiLower c.Name ≠ "list" ∧ asciiLower c.Name ≠ "help") ∧
    (registerCommands asciiLower [plainCmd "Build", plainCmd "test"]).message = none ∧
    (registerCommands asciiLower [plainCmd "Build", plainCmd "test"]).names
      = ["list", "help", "Build", "test"] ∧
    ∃ reg, registerCommands asciiLower [plainCmd "Build", plainCmd "test"] = .ok reg ∧
      reg.CommandList.map (fun cmd => cmd.Name) = ["list", "help", "Build", "test"] ∧
      reg.CommandMap "build"
        = some { Name := "Build", Title := "", Target := some (plainCmd "Build") } :=
  ⟨by decide, by decide, by decide, by decide,
    (registerCommands_distinct_ok asciiLower [plainCmd "Build", plainCmd "test"]
      (by decide) (by decide)).imp
      fun _ h => ⟨h.1, h.2.2.2.1, h.2.2.2.2.2.2.2.2 (plainCmd "Build") (by decide)⟩⟩

/-- C7: when two runfile commands have the same lower-cased name, or one has the
lower-cased name `list` or `help`, the registration of `main` panics with
`Duplicate command: <name>` at the first command (index `k`) whose lower-cased name
is `list`, `help` or that of an earlier command. The registry at the panic is the one
that registering the first `k` commands alone yields: the command list names the two
built-ins and the first `k` commands, and the map entry under `<name>` is still the
built-in or the earlier command of that name. `lower` is Go `strings.ToLower`. -/
theorem registerCommands_duplicate_panics (lower : String → String) (cmds : List RunCmd)
    (h : (∃ i j x, i < j ∧ (lowerNames lower cmds).get? i = some x ∧
            (lowerNames lower cmds).get? j = some x) ∨
         (∃ c ∈ cmds, lower c.Name = "list" ∨ lower c.Name = "help")) :
    ∃ (k : Nat) (name : String) (reg : Registry),
      (lowerNames lower cmds).get? k = some name ∧
      name ∈ "list" :: "help" :: (lowerNames lower cmds).take k ∧
      (∀ i x, i < k → (lowerNames lower cmds).get? i = some x →
        x ∉ "list" :: "help" :: (lowerNames lower cmds).take i) ∧
      registerCommands lower cmds = .panicked ("Duplicate command: " ++ name) reg ∧
      registerCommands lower (cmds.take k) = .ok reg ∧
      reg.CommandList = [listCmd, helpCmd] ++ (cmds.take k).map mkCommand ∧
      reg.CommandList.map (fun cmd => cmd.Name)
        = "list" :: "help" :: (cmds.take k).map (fun c => c.Name) ∧
      (∃ prior, reg.CommandMap name = some prior ∧
        (prior.Target = none ∨
          ∃ i c, i < k ∧ cmds.get? i = some c ∧ lower c.Name = name ∧
            prior.Name = c.Name ∧ prior.Target = some c)) := by
  classical
  have hex : ∃ j, ∃ x, (lowerNames lower cmds).get? j = some x ∧
      x ∈ "list" :: "help" :: (lowerNames lower cmds).take j := by
    rcases h with ⟨i, j, x, hij, hi, hj⟩ | ⟨c, hc, hname⟩
    · refine ⟨j, x, hj, ?_⟩
      have hmem : x ∈ (lowerNames lower cmds).take j := by
        have : ((lowerNames lower cmds).take j).get? i = some x := by
          rw [List.get?_eq_getElem?, List.getElem?_take_of_lt hij, ← List.get?_eq_getElem?]
          exact hi
        exact List.get?_mem this
      simp [hmem]
    · have hmem : lower c.Name ∈ lowerNames lower cmds := List.mem_map.mpr ⟨c, hc, rfl⟩
      obtain ⟨j, hj⟩ := List.mem_iff_get?.mp hmem
      refine ⟨j, _, hj, ?_⟩
      rcases hname with h1 | h1 <;> simp [h1]
  obtain ⟨k, ⟨name, hget, hmem⟩, hleast⟩ :
      ∃ k, (∃ x, (lowerNames lower cmds).get? k = some x ∧
          x ∈ "list" :: "help" :: (lowerNames lower cmds).take k) ∧
        ∀ i < k, ¬ ∃ x, (lowerNames lower cmds).get? i = some x ∧
          x ∈ "list" :: "help" :: (lowerNames lower cmds).take i :=
    ⟨Nat.find hex, Nat.find_spec hex, fun i hi => Nat.find_min hex hi⟩
  have hmin : ∀ i x, i < k → (lowerNames lower cmds).get? i = some x →
      x ∉ "list" :: "help" :: (lowerNames lower cmds).take i := by
    intro i x hi hx hc
    exact hleast i hi ⟨x, hx, hc⟩
  have hsplit : ∀ (l : List String) (x : String), x ∉ "list" :: "help" :: l →
      builtinRegistry.CommandMap x = none ∧ x ∉ l := by
    intro l x hx
    simp only [List.mem_cons, not_or] at hx
    exact ⟨builtin_commandMap_none x (by simp [hx.1, hx.2.1]), hx.2.2⟩
  have htake : lowerNames lower (cmds.take k) = (lowerNames lower cmds).take k := by
    simp [lowerNames, List.map_take]
  have hnd : (lowerNames lower (cmds.take k)).Nodup := by
    rw [htake]
    apply nodup_take_of_not_mem_take
    intro i x hi hx
    exact (hsplit _ x (hmin i x hi hx)).2
  have hlist : ((cmds.take k).foldl (Registry.add lower) builtinRegistry).CommandList
      = [listCmd, helpCmd] ++ (cmds.take k).map mkCommand := by
    rw [foldl_add_commandList]
    rfl
  refine ⟨k, name, (cmds.take k).foldl (Registry.add lower) builtinRegistry,
    hget, hmem, hmin, ?_, ?_, hlist, ?_, ?_⟩
  · apply registerLoop_panics lower cmds builtinRegistry _ name hget
    · intro i x hi hx
      exact hsplit _ x (hmin i x hi hx)
    · simp only [List.mem_cons] at hmem
      rcases hmem with h1 | h1 | h1
      · exact Or.inl (builtin_commandMap_some name (by simp [h1]))
      · exact Or.inl (builtin_commandMap_some name (by simp [h1]))
      · exact Or.inr h1
  · apply registerLoop_ok
    intro i x hx
    rw [htake] at hx ⊢
    have hi : i < k := by
      by_contra hge
      have hlen : ((lowerNames lower cmds).take k).length ≤ i := by
        rw [List.length_take]
        omega
      rw [List.get?_eq_none.mpr hlen] at hx
      exact Option.noConfusion hx
    have hx2 : (lowerNames lower cmds).get? i = some x := by
      rw [List.get?_eq_getElem?, List.getElem?_take_of_lt hi, ← List.get?_eq_getElem?] at hx
      exact hx
    have := hsplit _ x (hmin i x hi hx2)
    refine ⟨this.1, ?_⟩
    rw [List.take_take, Nat.min_eq_left (Nat.le_of_lt hi)]
    exact this.2
  · rw [hlist]
    simp [listCmd, helpCmd, mkCommand_eq, Function.comp_def]
  · by_cases hin : name ∈ lowerNames lower (cmds.take k)
    · obtain ⟨c, hc, hcname⟩ := List.mem_map.mp hin
      obtain ⟨i, hi⟩ := List.mem_iff_get?.mp hc
      have hik : i < k := by
        by_contra hge
        have hlen : (cmds.take k).length ≤ i := by
          rw [List.length_take]
          omega
        rw [List.get?_eq_none.mpr hlen] at hi
        exact Option.noConfusion hi
      have hci : cmds.get? i = some c := by
        rw [List.get?_eq_getElem?, List.getElem?_take_of_lt hik,
          ← List.get?_eq_getElem?] at hi
        exact hi
      refine ⟨mkCommand c, ?_, Or.inr ⟨i, c, hik, hci, hcname, rfl, rfl⟩⟩
      rw [← hcname]
      exact foldl_add_commandMap_of_mem lower (cmds.take k) _ c hnd hc
    · rw [foldl_add_commandMap_of_not_mem lower (cmds.take k) name _ hin]
      have hb : name ∈ ["list", "help"] := by
        rw [htake] at hin
        simp only [List.mem_cons] at hmem
        rcases hmem with h1 | h1 | h1
        · simp [h1]
        · simp [h1]
        · exact absurd h1 hin
      simp only [List.mem_cons, List.mem_singleton, List.not_mem_nil, or_false] at hb
      rcases hb with h1 | h1
      · exact ⟨listCmd, by rw [h1]; rfl, Or.inl rfl⟩
      · exact ⟨helpCmd, by rw [h1]; rfl, Or.inl rfl⟩

/-- C7, at a concrete input: `Build` after `build` panics with
`Duplicate command: build`; the built-ins and `build` alone are registered. -/
theorem registerCommands_duplicate_panics_witness :
    ((∃ i j x, i < j ∧
        (lowerNames asciiLower [plainCmd "build", plainCmd "Build"]).get? i = some x ∧
        (lowerNames asciiLower [plainCmd "build", plainCmd "Build"]).get? j = some x) ∨
     (∃ c ∈ [plainCmd "build", plainCmd "Build"],
        asciiLower c.Name = "list" ∨ asciiLower c.Name = "help")) ∧
    (registerCommands asciiLower [plainCmd "build", plainCmd "Build"]).message
      = some "Duplicate command: build" ∧
    (registerCommands asciiLower [plainCmd "build", plainCmd "Build"]).names
      = ["list", "help", "build"] ∧
    ∃ (k : Nat) (name : String) (reg : Registry),
      (lowerNames asciiLower [plainCmd "build", plainCmd "Build"]).get? k = some name ∧
      registerCommands asciiLower [plainCmd "build", plainCmd "Build"]
        = .panicked ("Duplicate command: " ++ name) reg :=
  have hyp : (∃ i j x, i < j ∧
        (lowerNames asciiLower [plainCmd "build", plainCmd "Build"]).get? i = some x ∧
        (lowerNames asciiLower [plainCmd "build", plainCmd "Build"]).get? j = some x) ∨
      (∃ c ∈ [plainCmd "build", plainCmd "Build"],
        asciiLower c.Name = "list" ∨ asciiLower c.Name = "help") :=
    Or.inl ⟨0, 1, "build", by decide, by decide, by decide⟩
  ⟨hyp, by decide, by decide,
    (registerCommands_duplicate_panics asciiLower [plainCmd "build", plainCmd "Build"]
      hyp).imp
      fun _ h => h.imp fun _ h => h.imp fun _ h => ⟨h.1, h.2.2.2.1⟩⟩

/-! ## Lemmas on the registration of flags -/

theorem flagNameOk_iff (name : String) :
    flagNameOk name = true ↔
      hasPrefix name "-" = false ∧ name.data.contains '=' = false := by
  unfold flagNameOk
  cases hasPrefix name "-" <;> cases name.data.contains '=' <;> simp

theorem FlagSet.Var_ok (f : FlagSet) (value : FlagValue) (name : String)
    (hok : flagNameOk name = true) (h : name ∉ f.formal.map Prod.fst) :
    f.Var value name = .ok { f with formal := f.formal ++ [(name, value)] } := by
  unfold FlagSet.Var
  have hany : f.formal.any (fun entry => entry.1 == name) = false := by
    rw [Bool.eq_false_iff]
    intro hc
    obtain ⟨e, he, heq⟩ := List.any_eq_true.mp hc
    have : e.1 = name := by simpa using heq
    exact h (List.mem_map.mpr ⟨e, he, this⟩)
  obtain ⟨h1, h2⟩ := (flagNameOk_iff name).mp hok
  have h2' : '=' ∉ name.data := by simpa using h2
  simp [hany, h1, h2']

theorem FlagSet.Var_ok_inv (f f' : FlagSet) (value : FlagValue) (name : String)
    (h : f.Var value name = .ok f') :
    f' = { f with formal := f.formal ++ [(name, value)] } ∧
      flagNameOk name = true ∧ name ∉ f.formal.map Prod.fst := by
  unfold FlagSet.Var at h
  split at h
  · exact Except.noConfusion h
  · next h1 =>
    split at h
    · exact Except.noConfusion h
    · next h2 =>
      split at h
      · exact Except.noConfusion h
      · next h3 =>
        simp only [Except.ok.injEq] at h
        refine ⟨h.symm, ?_, ?_⟩
        · rw [flagNameOk_iff]
          exact ⟨by simpa using h1, by simpa using h2⟩
        · intro hc
          obtain ⟨e, he, heq⟩ := List.mem_map.mp hc
          exact h3 (List.any_eq_true.mpr ⟨e, he, by simp [heq]⟩)

theorem evaluateCmdOptsStep_ok (lower : String → String) (st : OptsState) (opt : RunCmdOpt)
    (hwf : ∀ e ∈ optFlags lower opt, flagNameOk e.1 = true)
    (hnew : ∀ e ∈ optFlags lower opt, e.1 ∉ st.flags.formal.map Prod.fst)
    (hnd : ((optFlags lower opt).map Prod.fst).Nodup) :
    evaluateCmdOptsStep lower st opt = .ok
      { hasHelpShort := st.hasHelpShort || decide (opt.Short = 'h')
        hasHelpLong := st.hasHelpLong || equalFold opt.Long "help"
        flags := { st.flags with formal := st.flags.formal ++ optFlags lower opt } } := by
  have hflag : (if opt.Value.length > 0 then FlagValue.stringOpt opt.Name
      else FlagValue.boolOpt opt.Name) = optFlagValue opt := rfl
  have hhs : (if opt.Short = 'h' then true else st.hasHelpShort)
      = (st.hasHelpShort || decide (opt.Short = 'h')) := by
    by_cases h : opt.Short = 'h' <;> simp [h]
  have hhl : (if equalFold opt.Long "help" = true then true else st.hasHelpLong)
      = (st.hasHelpLong || equalFold opt.Long "help") := by
    cases equalFold opt.Long "help" <;> simp
  unfold evaluateCmdOptsStep
  simp only [hflag, hhs, hhl]
  by_cases hs : opt.Short ≠ Char.ofNat 0 <;> by_cases hl : opt.Long.length > 0
  · have hof : optFlags lower opt = [(String.singleton opt.Short, optFlagValue opt),
        (lower opt.Long, optFlagValue opt)] := by simp [optFlags, hs, hl]
    rw [hof] at hnew hnd hwf
    have h1 : String.singleton opt.Short ∉ st.flags.formal.map Prod.fst :=
      hnew (String.singleton opt.Short, optFlagValue opt) (by simp)
    have h2 : lower opt.Long ∉ st.flags.formal.map Prod.fst :=
      hnew (lower opt.Long, optFlagValue opt) (by simp)
    have h3 : lower opt.Long ≠ String.singleton opt.Short := by
      intro hc
      simp [hc] at hnd
    have h4 : lower opt.Long ∉
        (st.flags.formal ++ [(String.singleton opt.Short, optFlagValue opt)]).map Prod.fst := by
      simp only [List.map_append, List.mem_append, not_or]
      exact ⟨h2, by simpa using h3⟩
    have w1 := hwf (String.singleton opt.Short, optFlagValue opt) (by simp)
    have w2 := hwf (lower opt.Long, optFlagValue opt) (by simp)
    rw [if_pos hs, FlagSet.Var_ok _ _ _ w1 h1]
    simp only
    rw [if_pos hl, FlagSet.Var_ok _ _ _ w2 h4]
    simp [hof]
  · have hof : optFlags lower opt = [(String.singleton opt.Short, optFlagValue opt)] := by
      simp [optFlags, hs, hl]
    rw [hof] at hnew hwf
    have h1 : String.singleton opt.Short ∉ st.flags.formal.map Prod.fst :=
      hnew (String.singleton opt.Short, optFlagValue opt) (by simp)
    have w1 := hwf (String.singleton opt.Short, optFlagValue opt) (by simp)
    rw [if_pos hs, FlagSet.Var_ok _ _ _ w1 h1]
    simp only
    rw [if_neg hl]
    simp [hof]
  · have hof : optFlags lower opt = [(lower opt.Long, optFlagValue opt)] := by
      simp [optFlags, hs, hl]
    rw [hof] at hnew hwf
    have h2 : lower opt.Long ∉ st.flags.formal.map Prod.fst :=
      hnew (lower opt.Long, optFlagValue opt) (by simp)
    have w2 := hwf (lower opt.Long, optFlagValue opt) (by simp)
    rw [if_neg hs]
    simp only
    rw [if_pos hl, FlagSet.Var_ok _ _ _ w2 h2]
    simp [hof]
  · have hof : optFlags lower opt = [] := by simp [optFlags, hs, hl]
    rw [if_neg hs]
    simp only
    rw [if_neg hl]
    simp [hof]

theorem evaluateCmdOptsLoop_ok (lower : String → String) (opts : List RunCmdOpt) :
    ∀ st : OptsState,
      (∀ e ∈ declaredFlags lower opts, flagNameOk e.1 = true) →
      ((st.flags.formal ++ declaredFlags lower opts).map Prod.fst).Nodup →
      evaluateCmdOptsLoop lower opts st = .ok
        { hasHelpShort := st.hasHelpShort || declaresShortH opts
          hasHelpLong := st.hasHelpLong || declaresLongHelp opts
          flags := { st.flags with
            formal := st.flags.formal ++ declaredFlags lower opts } } := by
  induction opts with
  | nil =>
    intro st _ _
    simp [evaluateCmdOptsLoop, declaredFlags, declaresShortH, declaresLongHelp]
  | cons opt rest ih =>
    intro st hwf hnd
    simp only [declaredFlags, List.map_append] at hnd
    have hnd1 := List.nodup_append.mp hnd
    have hnd2 := List.nodup_append.mp hnd1.2.1
    have hnew : ∀ e ∈ optFlags lower opt, e.1 ∉ st.flags.formal.map Prod.fst := by
      intro e he hc
      exact hnd1.2.2 hc (List.mem_append_left _ (List.mem_map_of_mem _ he))
    have hwf1 : ∀ e ∈ optFlags lower opt, flagNameOk e.1 = true := by
      intro e he
      exact hwf e (by simp only [declaredFlags, List.mem_append]; exact Or.inl he)
    have hwf2 : ∀ e ∈ declaredFlags lower rest, flagNameOk e.1 = true := by
      intro e he
      exact hwf e (by simp only [declaredFlags, List.mem_append]; exact Or.inr he)
    simp only [evaluateCmdOptsLoop, evaluateCmdOptsStep_ok lower st opt hwf1 hnew hnd2.1]
    rw [ih _ hwf2]
    · simp [declaredFlags, declaresShortH, declaresLongHelp, Bool.or_assoc]
    · simpa [List.map_append, List.append_assoc] using hnd

theorem mem_declaredFlags (lower : String → String) (opts : List RunCmdOpt)
    (e : String × FlagValue) :
    e ∈ declaredFlags lower opts ↔ ∃ opt ∈ opts, e ∈ optFlags lower opt := by
  induction opts with
  | nil => simp [declaredFlags]
  | cons opt rest ih => simp [declaredFlags, ih]

theorem mem_optFlags (lower : String → String) (opt : RunCmdOpt) (e : String × FlagValue)
    (h : e ∈ optFlags lower opt) :
    e.2 = optFlagValue opt ∧
      (e.1 = String.singleton opt.Short ∨ (e.1 = lower opt.Long ∧ opt.Long.length > 0)) := by
  unfold optFlags at h
  rcases List.mem_append.mp h with h1 | h1
  · split at h1
    · simp only [List.mem_singleton] at h1
      subst h1
      exact ⟨rfl, Or.inl rfl⟩
    · simp at h1
  · split at h1
    · next hl =>
      simp only [List.mem_singleton] at h1
      subst h1
      exact ⟨rfl, Or.inr ⟨rfl, hl⟩⟩
    · simp at h1

theorem optFlagValue_ne_help (opt : RunCmdOpt) : optFlagValue opt ≠ FlagValue.help := by
  unfold optFlagValue
  split <;> simp

theorem declaredFlags_ne_help (lower : String → String) (opts : List RunCmdOpt)
    (e : String × FlagValue) (h : e ∈ declaredFlags lower opts) : e.2 ≠ FlagValue.help := by
  obtain ⟨opt, _, he⟩ := (mem_declaredFlags lower opts e).mp h
  rw [(mem_optFlags lower opt e he).1]
  exact optFlagValue_ne_help opt

theorem declaresShortH_eq_false (opts : List RunCmdOpt) :
    declaresShortH opts = false ↔ ∀ opt ∈ opts, opt.Short ≠ 'h' := by
  simp [declaresShortH]

theorem declaresLongHelp_eq_false (opts : List RunCmdOpt) :
    declaresLongHelp opts = false ↔ ∀ opt ∈ opts, equalFold opt.Long "help" = false := by
  simp [declaresLongHelp]

/-- The flag set `evaluateCmdOpts` builds when every name is accepted and no
registration clashes: the declared flags, then `h` unless a short `h` is declared, then
`help` unless a long `help` is declared. -/
theorem evaluateCmdOptsFlags_ok (lower : String → String) (cmdName : String)
    (opts : List RunCmdOpt)
    (hwf : ∀ e ∈ declaredFlags lower opts, flagNameOk e.1 = true)
    (hdistinct : ((declaredFlags lower opts ++ implicitHelpFlags opts).map Prod.fst).Nodup) :
    evaluateCmdOptsFlags lower cmdName opts = .ok
      { name := cmdName
        formal := declaredFlags lower opts
          ++ (if declaresShortH opts then [] else [("h", FlagValue.help)])
          ++ (if declaresLongHelp opts then [] else [("help", FlagValue.help)]) } := by
  have hdecl : ((declaredFlags lower opts).map Prod.fst).Nodup := by
    rw [List.map_append] at hdistinct
    exact (List.nodup_append.mp hdistinct).1
  unfold evaluateCmdOptsFlags
  rw [evaluateCmdOptsLoop_ok lower opts _ hwf (by simpa using hdecl)]
  simp only [Bool.false_or, List.nil_append]
  cases hs : declaresShortH opts <;> cases hl : declaresLongHelp opts
  · simp only [implicitHelpFlags, hs, hl, Bool.false_eq_true, if_false, List.map_append,
      List.map_cons, List.map_nil, List.singleton_append] at hdistinct
    have hdis := (List.nodup_append.mp hdistinct).2.2
    have h1 : "h" ∉ (declaredFlags lower opts).map Prod.fst :=
      fun hc => hdis hc (by simp)
    have h2 : "help" ∉ (declaredFlags lower opts ++ [("h", FlagValue.help)]).map Prod.fst := by
      simp only [List.map_append, List.mem_append, not_or]
      exact ⟨fun hc => hdis hc (by simp), by decide⟩
    simp only [Bool.not_false, if_true]
    rw [FlagSet.Var_ok _ _ _ (by decide) h1]
    simp only
    rw [FlagSet.Var_ok _ _ _ (by decide) h2]
    simp
  · simp only [implicitHelpFlags, hs, hl, Bool.false_eq_true, if_false, if_true,
      List.map_append, List.map_cons, List.map_nil, List.append_nil] at hdistinct
    have hdis := (List.nodup_append.mp hdistinct).2.2
    have h1 : "h" ∉ (declaredFlags lower opts).map Prod.fst :=
      fun hc => hdis hc (by simp)
    simp only [Bool.not_false, Bool.not_true, if_true]
    rw [FlagSet.Var_ok _ _ _ (by decide) h1]
    simp
  · simp only [implicitHelpFlags, hs, hl, Bool.false_eq_true, if_false, if_true,
      List.map_append, List.map_cons, List.map_nil, List.nil_append] at hdistinct
    have hdis := (List.nodup_append.mp hdistinct).2.2
    have h2 : "help" ∉ (declaredFlags lower opts).map Prod.fst :=
      fun hc => hdis hc (by simp)
    simp only [Bool.not_false, Bool.not_true, if_true]
    simp only [Bool.false_eq_true, if_false]
    rw [FlagSet.Var_ok _ _ _ (by decide) h2]
    simp
  · simp

/-! ## Claims on option evaluation -/

/-- C8 (amended): when every flag name of the declared options (each short form, each
lower-cased long form) is one `(*FlagSet).Var` accepts (no leading `-`, no `=`), and
these names together with the implicit help names that are not suppressed are pairwise
distinct, `evaluateCmdOpts` registers its flags without a panic, it registers the
implicit `-h` exactly when no declared option has the short form `h`, and the implicit
`--help` exactly when no declared option has a long form equal to `help` ignoring
letter case; the two are decided independently, and no other flag is bound to the
help switch. `lower` is Go `strings.ToLower`. -/
theorem evaluateCmdOptsFlags_implicit_help (lower : String → String) (cmdName : String)
    (opts : List RunCmdOpt)
    (hwf : ∀ e ∈ declaredFlags lower opts, flagNameOk e.1 = true)
    (hdistinct : ((declaredFlags lower opts ++ implicitHelpFlags opts).map Prod.fst).Nodup) :
    ∃ fs, evaluateCmdOptsFlags lower cmdName opts = .ok fs ∧
      (("h", FlagValue.help) ∈ fs.formal ↔ ∀ opt ∈ opts, opt.Short ≠ 'h') ∧
      (("help", FlagValue.help) ∈ fs.formal ↔
        ∀ opt ∈ opts, equalFold opt.Long "help" = false) ∧
      (∀ e ∈ fs.formal, e.2 = FlagValue.help →
        e = ("h", FlagValue.help) ∨ e = ("help", FlagValue.help)) ∧
      fs.formal = declaredFlags lower opts
        ++ (if declaresShortH opts then [] else [("h", FlagValue.help)])
        ++ (if declaresLongHelp opts then [] else [("help", FlagValue.help)]) := by
  refine ⟨_, evaluateCmdOptsFlags_ok lower cmdName opts hwf hdistinct, ?_, ?_, ?_, rfl⟩
  · rw [← declaresShortH_eq_false]
    have hnd : ("h", FlagValue.help) ∉ declaredFlags lower opts :=
      fun hc => declaredFlags_ne_help lower opts _ hc rfl
    cases hs : declaresShortH opts <;> cases hl : declaresLongHelp opts <;> simp [hnd]
  · rw [← declaresLongHelp_eq_false]
    have hnd : ("help", FlagValue.help) ∉ declaredFlags lower opts :=
      fun hc => declaredFlags_ne_help lower opts _ hc rfl
    cases hs : declaresShortH opts <;> cases hl : declaresLongHelp opts <;> simp [hnd]
  · intro e he hv
    simp only [List.mem_append] at he
    rcases he with (he | he) | he
    · exact absurd hv (declaredFlags_ne_help lower opts e he)
    · split at he
      · simp at he
      · exact Or.inl (List.mem_singleton.mp he)
    · split at he
      · simp at he
      · exact Or.inr (List.mem_singleton.mp he)

/-- C8, at a concrete input: with the options `-n, --name` and `--HELP` declared, `-h`
is registered implicitly and `--help` is not. -/
theorem evaluateCmdOptsFlags_implicit_help_witness :
    (∀ e ∈ declaredFlags asciiLower
        [switchOpt "name" 'n' "name", switchOpt "x" (Char.ofNat 0) "HELP"],
      flagNameOk e.1 = true) ∧
    ((declaredFlags asciiLower
          [switchOpt "name" 'n' "name", switchOpt "x" (Char.ofNat 0) "HELP"]
        ++ implicitHelpFlags
          [switchOpt "name" 'n' "name", switchOpt "x" (Char.ofNat 0) "HELP"]).map
        Prod.fst).Nodup ∧
    evaluateCmdOptsFlags asciiLower "greet"
        [switchOpt "name" 'n' "name", switchOpt "x" (Char.ofNat 0) "HELP"]
      = .ok { name := "greet"
              formal := [("n", FlagValue.boolOpt "name"), ("name", FlagValue.boolOpt "name"),
                ("help", FlagValue.boolOpt "x"), ("h", FlagValue.help)] } ∧
    ∃ fs, evaluateCmdOptsFlags asciiLower "greet"
        [switchOpt "name" 'n' "name", switchOpt "x" (Char.ofNat 0) "HELP"] = .ok fs ∧
      ("h", FlagValue.help) ∈ fs.formal ∧ ("help", FlagValue.help) ∉ fs.formal :=
  ⟨by decide, by decide, rfl,
    (evaluateCmdOptsFlags_implicit_help asciiLower "greet"
      [switchOpt "name" 'n' "name", switchOpt "x" (Char.ofNat 0) "HELP"]
      (by decide) (by decide)).imp
      fun _ h => ⟨h.1, h.2.1.mpr (by decide), fun hc => by
        have := h.2.2.1.mp hc
        revert this
        decide⟩⟩

/-- C8 as stated fails: with two options that share the short form `a`, no declared
option has the short form `h` or the long form `help`, yet `evaluateCmdOpts` panics on
the redefined flag and registers neither `-h` nor `--help`, whatever `strings.ToLower`
does. -/
theorem evaluateCmdOptsFlags_redefinition_counterexample :
    (∀ opt ∈ [switchOpt "first" 'a' "", switchOpt "second" 'a' ""], opt.Short ≠ 'h') ∧
    (∀ opt ∈ [switchOpt "first" 'a' "", switchOpt "second" 'a' ""],
        equalFold opt.Long "help" = false) ∧
    (∀ lower : String → String,
      evaluateCmdOptsFlags lower "cmd" [switchOpt "first" 'a' "", switchOpt "second" 'a' ""]
        = .error (FlagPanic.redefined "cmd" "a")) ∧
    (∀ lower : String → String,
      ¬ ∃ fs, evaluateCmdOptsFlags lower "cmd"
          [switchOpt "first" 'a' "", switchOpt "second" 'a' ""] = .ok fs ∧
        ("h", FlagValue.help) ∈ fs.formal) :=
  ⟨by decide, by decide, fun _ => rfl, fun lower ⟨_, h, _⟩ => by
    have he : evaluateCmdOptsFlags lower "cmd"
        [switchOpt "first" 'a' "", switchOpt "second" 'a' ""]
        = .error (FlagPanic.redefined "cmd" "a") := rfl
    rw [he] at h
    exact Except.noConfusion h⟩

/-! ## Claims on the shell of a command and on boolean options -/

/-- C9 (amended): `RunCmd.Shell` returns a non-empty shell override as it is, and
otherwise the `.SHELL` entry of the command scope's own attribute map (the empty
string when that map has none); it reads no other scope. A command without override
therefore gets the global `.SHELL` value, the one `Runfile.DefaultShell` looks up,
whenever its own scope holds the same `.SHELL` entry as the global scope. -/
theorem runCmd_shell_reads_own_scope (c : RunCmd) :
    (c.Config.Shell.length ≠ 0 → c.Shell = c.Config.Shell) ∧
    (c.Config.Shell.length = 0 → c.Shell = c.Scope.Attrs.index ".SHELL") ∧
    (c.Config.Shell.length = 0 → c.Scope.Attrs.lookup ".SHELL" = none → c.Shell = "") ∧
    (∀ rf : Runfile, c.Config.Shell.length = 0 →
      c.Scope.Attrs.lookup ".SHELL" = rf.Scope.Attrs.lookup ".SHELL" →
      c.Shell = rf.Scope.Attrs.index ".SHELL" ∧ c.Shell = rf.DefaultShell.1) := by
  refine ⟨?_, ?_, ?_, ?_⟩
  · intro h
    simp [RunCmd.Shell, defaultIfEmpty, h]
  · intro h
    simp [RunCmd.Shell, defaultIfEmpty, h]
  · intro h hnone
    simp [RunCmd.Shell, defaultIfEmpty, h, AttrMap.index, hnone]
  · intro rf h hcopy
    have hshell : c.Shell = c.Scope.Attrs.index ".SHELL" := by
      simp [RunCmd.Shell, defaultIfEmpty, h]
    rw [hshell]
    unfold AttrMap.index Runfile.DefaultShell
    rw [hcopy]
    cases rf.Scope.Attrs.lookup ".SHELL" <;> simp

/-- C9 (amended), at a concrete input: the command `build` without override whose own
scope holds `.SHELL = bash`, as the global scope does, gets `bash`. -/
theorem runCmd_shell_reads_own_scope_witness :
    (∀ c ∈ (shellRunfile [(".SHELL", "bash")]).Cmds,
      c.Config.Shell.length = 0 ∧
      c.Scope.Attrs.lookup ".SHELL"
        = (shellRunfile [(".SHELL", "bash")]).Scope.Attrs.lookup ".SHELL" ∧
      c.Shell = "bash") ∧
    (shellRunfile [(".SHELL", "bash")]).DefaultShell = ("bash", true) ∧
    ∀ c ∈ (shellRunfile [(".SHELL", "bash")]).Cmds,
      c.Shell = (shellRunfile [(".SHELL", "bash")]).DefaultShell.1 :=
  ⟨by decide, by decide, fun c hc =>
    ((runCmd_shell_reads_own_scope c).2.2.2 (shellRunfile [(".SHELL", "bash")])
      (by revert c; decide) (by revert c; decide)).2⟩

/-- C9 as stated fails: in a runfile whose global scope sets `.SHELL` to `bash`, the
command `build` has no shell override and no `.SHELL` entry in its own scope (whose
parent is the global scope), and `RunCmd.Shell` returns the empty string, not the
global value `bash`. -/
theorem runCmd_shell_global_counterexample :
    (shellRunfile []).Scope.Attrs.index ".SHELL" = "bash" ∧
    (shellRunfile []).DefaultShell = ("bash", true) ∧
    (shellRunfile []).Cmds.length = 1 ∧
    ∀ c ∈ (shellRunfile []).Cmds,
      c.Config.Shell = "" ∧
      c.Scope.Parent = some (shellRunfile []).Scope ∧
      c.Scope.global = (shellRunfile []).Scope ∧
      c.Scope.Attrs.lookup ".SHELL" = none ∧
      c.Shell = "" ∧
      c.Shell ≠ (shellRunfile []).Scope.Attrs.index ".SHELL" := by
  decide

theorem parseBool_error_iff (v : String) :
    (∃ err, parseBool v = .error err) ↔ v ∉ boolLiterals := by
  unfold parseBool boolLiterals
  by_cases h1 : v ∈ ["1", "t", "T", "true", "TRUE", "True"]
  · rw [if_pos h1]
    simp only [List.mem_cons, List.mem_singleton, List.not_mem_nil, or_false] at h1
    rcases h1 with h | h | h | h | h | h <;> subst h <;> simp
  · by_cases h2 : v ∈ ["0", "f", "F", "false", "FALSE", "False"]
    · rw [if_neg h1, if_pos h2]
      simp only [List.mem_cons, List.mem_singleton, List.not_mem_nil, or_false] at h2
      rcases h2 with h | h | h | h | h | h <;> subst h <;> simp
    · rw [if_neg h1, if_neg h2]
      simp only [List.mem_cons, List.mem_singleton, List.not_mem_nil, or_false, not_or]
        at h1 h2 ⊢
      simp [h1, h2]

/-- C10: `Set(v)` returns an error exactly when `v` is not one of the boolean literals
of `strconv.ParseBool`, and then leaves the stored value and the set flag unchanged;
when `Set(v)` returns without error the stored value is the parsed boolean (true for
`1, t, T, TRUE, true, True`), `IsSet()` is true and `String()` is `"1"` for true and
`""` for false; and it does return without error for every literal on a `boolOpt`
whose value pointer is not nil. -/
theorem boolOpt_set_spec (a : boolOpt) (v : String) :
    ((∃ err a', a.Set v = .error err a') ↔ v ∉ boolLiterals) ∧
    (∀ err a', a.Set v = .error err a' → a' = a) ∧
    (∀ a', a.Set v = .ok a' →
      ∃ b, parseBool v = .ok b ∧
        (b = true ↔ v ∈ ["1", "t", "T", "TRUE", "true", "True"]) ∧
        a'.value = some b ∧ a'.IsSet = true ∧ a'.name = a.name ∧
        a'.String = (if b then "1" else "")) ∧
    (a.value ≠ none → v ∈ boolLiterals → ∃ a', a.Set v = .ok a') := by
  refine ⟨?_, ?_, ?_, ?_⟩
  · rw [← parseBool_error_iff]
    unfold boolOpt.Set
    cases hp : parseBool v with
    | error err => simp
    | ok b => cases a.value <;> simp
  · intro err a' h
    unfold boolOpt.Set at h
    cases hp : parseBool v with
    | error e => rw [hp] at h; simp only [SetResult.error.injEq] at h; exact h.2.symm
    | ok b => rw [hp] at h; cases hv : a.value <;> rw [hv] at h <;> simp at h
  · intro a' h
    unfold boolOpt.Set at h
    cases hp : parseBool v with
    | error e => rw [hp] at h; simp at h
    | ok b =>
      rw [hp] at h
      cases hv : a.value with
      | none => rw [hv] at h; simp at h
      | some old =>
        rw [hv] at h
        simp only [SetResult.ok.injEq] at h
        subst h
        refine ⟨b, rfl, ?_, rfl, rfl, rfl, ?_⟩
        · unfold parseBool at hp
          by_cases h1 : v ∈ ["1", "t", "T", "true", "TRUE", "True"]
          · rw [if_pos h1] at hp
            have hb : b = true := by
              simp only [Except.ok.injEq] at hp
              exact hp.symm
            simp only [hb, true_iff]
            simp only [List.mem_cons, List.mem_singleton, List.not_mem_nil, or_false] at h1 ⊢
            tauto
          · rw [if_neg h1] at hp
            have hb : b = false := by
              split at hp
              · simp only [Except.ok.injEq] at hp
                exact hp.symm
              · simp at hp
            simp only [hb, Bool.false_eq_true, false_iff]
            simp only [List.mem_cons, List.mem_singleton, List.not_mem_nil, or_false] at h1 ⊢
            tauto
        · cases b <;> rfl
  · intro hv hlit
    have hne : ¬ ∃ err, parseBool v = .error err := by
      rw [parseBool_error_iff]
      exact fun hc => hc hlit
    unfold boolOpt.Set
    cases hp : parseBool v with
    | error e => exact absurd ⟨e, hp⟩ hne
    | ok b =>
      cases hval : a.value with
      | none => exact absurd hval hv
      | some old => exact ⟨_, rfl⟩

/-- C10, at concrete inputs: on the `boolOpt` of a fresh option, `Set("True")` stores
true and `String()` is `"1"`, `Set("0")` stores false and `String()` is `""`, and
`Set("yes")` returns an error and changes nothing. -/
theorem boolOpt_set_spec_witness :
    (newBoolOpt "force").Set "True"
      = .ok { name := "force", value := some true, set := true } ∧
    ({ name := "force", value := some true, set := true } : boolOpt).String = "1" ∧
    (newBoolOpt "force").Set "0"
      = .ok { name := "force", value := some false, set := true } ∧
    ({ name := "force", value := some false, set := true } : boolOpt).String = "" ∧
    (newBoolOpt "force").Set "yes"
      = .error { Func := "ParseBool", Num := "yes" } (newBoolOpt "force") ∧
    ∃ a', (newBoolOpt "force").Set "true" = .ok a' :=
  ⟨by decide, by decide, by decide, by decide, by decide,
    (boolOpt_set_spec (newBoolOpt "force") "true").2.2.2 (by decide) (by decide)⟩

/-! ## Lemmas on the leading-whitespace scan -/

/-- On a line that is not whitespace-only the run of leading whitespace ends at a
rune of the line, and that rune is not whitespace. -/
theorem takeWhile_stops_in_range (l : List Char) (h : l.all isWhitespace = false) :
    (l.takeWhile isWhitespace).length < l.length ∧
      ∃ c, l.get? (l.takeWhile isWhitespace).length = some c ∧ isWhitespace c = false := by
  induction l with
  | nil => simp at h
  | cons r rest ih =>
    cases hr : isWhitespace r
    · simp [List.takeWhile, hr]
    · have hrest : rest.all isWhitespace = false := by
        rw [List.all_cons, hr, Bool.true_and] at h
        exact h
      obtain ⟨hlt, c, hc, hws⟩ := ih hrest
      refine ⟨by simp [List.takeWhile, hr, hlt], c, ?_, hws⟩
      simpa [List.takeWhile, hr] using hc

/-- Every rune before the end of the run of leading whitespace is whitespace. -/
theorem get_before_takeWhile_length (l : List Char) (j : Nat) (c : Char)
    (hj : j < (l.takeWhile isWhitespace).length) (hc : l.get? j = some c) :
    isWhitespace c = true := by
  have hsplit : l.takeWhile isWhitespace ++ l.dropWhile isWhitespace = l :=
    List.takeWhile_append_dropWhile _ _
  have hget : (l.takeWhile isWhitespace).get? j = some c := by
    rw [← hsplit, List.get?_eq_getElem?, List.getElem?_append_left hj,
      ← List.get?_eq_getElem?] at hc
    exact hc
  exact List.mem_takeWhile_imp (List.get?_mem hget)

/-! ## Claim on the safety of the scan -/

/-- C11: `normalizeCmdScript` never fails with an out-of-range index, and whenever
lines remain after the two trimming loops the first of them holds a rune that is not
whitespace, so the scan `for isWhitespace(runes[i]) { i++ }` stops at an index `i`
strictly below the rune count of that line: `runes[i]` exists and is not whitespace,
and every rune before it is whitespace. -/
theorem normalizeCmdScript_scan_in_range (txt : List String) :
    (∃ out, normalizeCmdScript txt = some out) ∧
    ∀ first rest, dropTrailingBlank (dropLeadingBlank txt) = first :: rest →
      (∃ c ∈ first.data, isWhitespace c = false) ∧
      ∃ i, leadingWhitespaceScan first.data 0 = some i ∧ i < first.data.length ∧
        (∃ c, first.data.get? i = some c ∧ isWhitespace c = false) ∧
        ∀ j c, j < i → first.data.get? j = some c → isWhitespace c = true := by
  refine ⟨⟨_, normalizeCmdScript_eq txt⟩, ?_⟩
  intro first rest hd
  rw [dropTrailingBlank_eq_rdropWhile, dropLeadingBlank_eq_dropWhile] at hd
  have hnb : isLineWhitespaceOnly first = false :=
    trimmedLines_head_not_blank txt first rest hd
  have hall : first.data.all isWhitespace = false := by
    rw [← isLineWhitespaceOnlyLoop_eq_all]; exact hnb
  obtain ⟨hlt, c, hc, hws⟩ := takeWhile_stops_in_range first.data hall
  refine ⟨⟨c, List.get?_mem hc, hws⟩, (first.data.takeWhile isWhitespace).length, ?_, hlt,
    ⟨c, hc, hws⟩, ?_⟩
  · rw [leadingWhitespaceScan_eq first.data 0 hall, Nat.zero_add]
  · intro j d hj hd2
    exact get_before_takeWhile_length first.data j d hj hd2

/-- C11, at a concrete input: after trimming `["", "  a", " "]` the first line is
`"  a"`, and the scan stops at index 2 of its 3 runes. -/
theorem normalizeCmdScript_scan_in_range_witness :
    dropTrailingBlank (dropLeadingBlank ["", "  a", " "]) = ["  a"] ∧
    leadingWhitespaceScan "  a".data 0 = some 2 ∧
    normalizeCmdScript ["", "  a", " "] = some ["a"] ∧
    ∃ i, leadingWhitespaceScan "  a".data 0 = some i ∧ i < "  a".data.length :=
  ⟨by decide, by decide, by decide,
    ((normalizeCmdScript_scan_in_range ["", "  a", " "]).2 "  a" [] (by decide)).2.imp
      fun _ h => ⟨h.1, h.2.1⟩⟩

/-! ## Lemmas on the implicit help entry of the help screen -/

theorem showCmdUsageScan_eq (opts : List RunCmdOpt) :
    ∀ hs hl : Bool, showCmdUsageScan opts hs hl
      = (hs || declaresShortH opts, hl || declaresLongHelpExact opts) := by
  induction opts with
  | nil => intro hs hl; simp [showCmdUsageScan, declaresShortH, declaresLongHelpExact]
  | cons opt rest ih =>
    intro hs hl
    simp only [showCmdUsageScan, ih, declaresShortH, declaresLongHelpExact, List.any_cons]
    by_cases h1 : opt.Short = 'h' <;> by_cases h2 : opt.Long = "help" <;>
      simp [h1, h2]

/-- What the help screen lists, read off the two tests of `showCmdUsage`. -/
theorem showCmdUsageHelpLines_advertises (opts : List RunCmdOpt) (hne : opts ≠ []) :
    advertisesShortHelp (showCmdUsageHelpLines opts) = !declaresShortH opts ∧
    advertisesLongHelp (showCmdUsageHelpLines opts) = !declaresLongHelpExact opts := by
  have hlen : opts.length > 0 := List.length_pos.mpr hne
  unfold showCmdUsageHelpLines
  rw [showCmdUsageScan_eq]
  simp only [Bool.false_or, if_pos hlen]
  cases declaresShortH opts <;> cases declaresLongHelpExact opts <;> decide

theorem evaluateCmdOptsStep_ok_inv (lower : String → String) (st st' : OptsState)
    (opt : RunCmdOpt) (h : evaluateCmdOptsStep lower st opt = .ok st') :
    st' = { hasHelpShort := st.hasHelpShort || decide (opt.Short = 'h')
            hasHelpLong := st.hasHelpLong || equalFold opt.Long "help"
            flags := { st.flags with formal := st.flags.formal ++ optFlags lower opt } } := by
  have hflag : (if opt.Value.length > 0 then FlagValue.stringOpt opt.Name
      else FlagValue.boolOpt opt.Name) = optFlagValue opt := rfl
  have hhs : (if opt.Short = 'h' then true else st.hasHelpShort)
      = (st.hasHelpShort || decide (opt.Short = 'h')) := by
    by_cases h : opt.Short = 'h' <;> simp [h]
  have hhl : (if equalFold opt.Long "help" = true then true else st.hasHelpLong)
      = (st.hasHelpLong || equalFold opt.Long "help") := by
    cases equalFold opt.Long "help" <;> simp
  unfold evaluateCmdOptsStep at h
  simp only [hflag, hhs, hhl] at h
  by_cases hs : opt.Short ≠ Char.ofNat 0 <;> by_cases hl : opt.Long.length > 0
  · rw [if_pos hs] at h
    cases hv1 : st.flags.Var (optFlagValue opt) (String.singleton opt.Short) with
    | error p => rw [hv1] at h; exact Except.noConfusion h
    | ok f1 =>
      rw [hv1] at h
      simp only at h
      rw [if_pos hl] at h
      cases hv2 : f1.Var (optFlagValue opt) (lower opt.Long) with
      | error p => rw [hv2] at h; exact Except.noConfusion h
      | ok f2 =>
        rw [hv2] at h
        simp only [Except.ok.injEq] at h
        rw [← h, (FlagSet.Var_ok_inv _ _ _ _ hv2).1, (FlagSet.Var_ok_inv _ _ _ _ hv1).1]
        simp [optFlags, hs, hl]
  · rw [if_pos hs] at h
    cases hv1 : st.flags.Var (optFlagValue opt) (String.singleton opt.Short) with
    | error p => rw [hv1] at h; exact Except.noConfusion h
    | ok f1 =>
      rw [hv1] at h
      simp only at h
      rw [if_neg hl] at h
      simp only [Except.ok.injEq] at h
      rw [← h, (FlagSet.Var_ok_inv _ _ _ _ hv1).1]
      simp [optFlags, hs, hl]
  · rw [if_neg hs] at h
    simp only at h
    rw [if_pos hl] at h
    cases hv2 : st.flags.Var (optFlagValue opt) (lower opt.Long) with
    | error p => rw [hv2] at h; exact Except.noConfusion h
    | ok f2 =>
      rw [hv2] at h
      simp only [Except.ok.injEq] at h
      rw [← h, (FlagSet.Var_ok_inv _ _ _ _ hv2).1]
      simp [optFlags, hs, hl]
  · rw [if_neg hs] at h
    simp only at h
    rw [if_neg hl] at h
    simp only [Except.ok.injEq] at h
    rw [← h]
    simp [optFlags, hs, hl]

theorem evaluateCmdOptsLoop_ok_inv (lower : String → String) (opts : List RunCmdOpt) :
    ∀ st st' : OptsState, evaluateCmdOptsLoop lower opts st = .ok st' →
      st' = { hasHelpShort := st.hasHelpShort || declaresShortH opts
              hasHelpLong := st.hasHelpLong || declaresLongHelp opts
              flags := { st.flags with
                formal := st.flags.formal ++ declaredFlags lower opts } } := by
  induction opts with
  | nil =>
    intro st st' h
    simp only [evaluateCmdOptsLoop, Except.ok.injEq] at h
    rw [← h]
    simp [declaredFlags, declaresShortH, declaresLongHelp]
  | cons opt rest ih =>
    intro st st' h
    unfold evaluateCmdOptsLoop at h
    cases hstep : evaluateCmdOptsStep lower st opt with
    | error p => rw [hstep] at h; exact Except.noConfusion h
    | ok st1 =>
      rw [hstep] at h
      simp only at h
      rw [ih st1 st' h, evaluateCmdOptsStep_ok_inv lower st st1 opt hstep]
      simp [declaredFlags, declaresShortH, declaresLongHelp, Bool.or_assoc]

/-- Whenever `evaluateCmdOpts` completes the registration, its flag set is the declared
flags, then `h` unless a short `h` is declared, then `help` unless a long form equal
to `help` ignoring case is declared. -/
theorem evaluateCmdOptsFlags_ok_inv (lower : String → String) (cmdName : String)
    (opts : List RunCmdOpt) (fs : FlagSet)
    (h : evaluateCmdOptsFlags lower cmdName opts = .ok fs) :
    fs.formal = declaredFlags lower opts
      ++ (if declaresShortH opts then [] else [("h", FlagValue.help)])
      ++ (if declaresLongHelp opts then [] else [("help", FlagValue.help)]) := by
  unfold evaluateCmdOptsFlags at h
  cases hloop : evaluateCmdOptsLoop lower opts
      { hasHelpShort := false, hasHelpLong := false,
        flags := { name := cmdName, formal := [] } } with
  | error p => rw [hloop] at h; exact Except.noConfusion h
  | ok st =>
    rw [hloop] at h
    simp only at h
    have hst := evaluateCmdOptsLoop_ok_inv lower opts _ st hloop
    simp only [Bool.false_or, List.nil_append] at hst
    subst hst
    simp only at h
    cases hs : declaresShortH opts <;> cases hl : declaresLongHelp opts <;>
      simp only [hs, hl, Bool.not_false, Bool.not_true, if_true, Bool.false_eq_true,
        if_false] at h ⊢
    · cases hv1 : FlagSet.Var { name := cmdName, formal := declaredFlags lower opts }
          FlagValue.help "h" with
      | error p => rw [hv1] at h; exact Except.noConfusion h
      | ok f1 =>
        rw [hv1] at h
        simp only at h
        rw [(FlagSet.Var_ok_inv _ _ _ _ h).1, (FlagSet.Var_ok_inv _ _ _ _ hv1).1]
    · cases hv1 : FlagSet.Var { name := cmdName, formal := declaredFlags lower opts }
          FlagValue.help "h" with
      | error p => rw [hv1] at h; exact Except.noConfusion h
      | ok f1 =>
        rw [hv1] at h
        simp only [Except.ok.injEq] at h
        rw [← h, (FlagSet.Var_ok_inv _ _ _ _ hv1).1]
        simp
    · rw [(FlagSet.Var_ok_inv _ _ _ _ h).1]
      simp
    · simp only [Except.ok.injEq] at h
      rw [← h]
      simp

theorem implicit_help_mem (lower : String → String) (opts : List RunCmdOpt) :
    (("h", FlagValue.help) ∈ declaredFlags lower opts
        ++ (if declaresShortH opts then [] else [("h", FlagValue.help)])
        ++ (if declaresLongHelp opts then [] else [("help", FlagValue.help)])
      ↔ declaresShortH opts = false) ∧
    (("help", FlagValue.help) ∈ declaredFlags lower opts
        ++ (if declaresShortH opts then [] else [("h", FlagValue.help)])
        ++ (if declaresLongHelp opts then [] else [("help", FlagValue.help)])
      ↔ declaresLongHelp opts = false) := by
  have hnd1 : ("h", FlagValue.help) ∉ declaredFlags lower opts :=
    fun hc => declaredFlags_ne_help lower opts _ hc rfl
  have hnd2 : ("help", FlagValue.help) ∉ declaredFlags lower opts :=
    fun hc => declaredFlags_ne_help lower opts _ hc rfl
  cases hs : declaresShortH opts <;> cases hl : declaresLongHelp opts <;> simp [hnd1, hnd2]

theorem declaresLongHelp_of_exact (opts : List RunCmdOpt)
    (h : declaresLongHelpExact opts = true) : declaresLongHelp opts = true := by
  unfold declaresLongHelpExact at h
  unfold declaresLongHelp
  obtain ⟨opt, hopt, heq⟩ := List.any_eq_true.mp h
  have hlong : opt.Long = "help" := by simpa using heq
  refine List.any_eq_true.mpr ⟨opt, hopt, ?_⟩
  rw [hlong]
  decide

theorem declaresLongHelpExact_of_fold (opts : List RunCmdOpt)
    (hcase : ∀ opt ∈ opts, equalFold opt.Long "help" = true → opt.Long = "help")
    (h : declaresLongHelp opts = true) : declaresLongHelpExact opts = true := by
  unfold declaresLongHelp at h
  unfold declaresLongHelpExact
  obtain ⟨opt, hopt, heq⟩ := List.any_eq_true.mp h
  exact List.any_eq_true.mpr ⟨opt, hopt, by simp [hcase opt hopt heq]⟩

/-! ## The registration completes only on accepted, pairwise distinct names -/

theorem FlagSet.Var_ok_nodup (f f' : FlagSet) (value : FlagValue) (name : String)
    (h : f.Var value name = .ok f') (hnd : (f.formal.map Prod.fst).Nodup) :
    (f'.formal.map Prod.fst).Nodup := by
  obtain ⟨hf, _, hnew⟩ := FlagSet.Var_ok_inv f f' value name h
  rw [hf]
  simp only [List.map_append, List.map_cons, List.map_nil]
  rw [List.nodup_append]
  refine ⟨hnd, List.nodup_singleton name, ?_⟩
  intro a ha hb
  rw [List.mem_singleton] at hb
  exact hnew (hb ▸ ha)

theorem evaluateCmdOptsStep_ok_nodup (lower : String → String) (st st' : OptsState)
    (opt : RunCmdOpt) (h : evaluateCmdOptsStep lower st opt = .ok st')
    (hnd : (st.flags.formal.map Prod.fst).Nodup) :
    (st'.flags.formal.map Prod.fst).Nodup ∧
      ∀ e ∈ optFlags lower opt, flagNameOk e.1 = true := by
  unfold evaluateCmdOptsStep at h
  simp only at h
  by_cases hs : opt.Short ≠ Char.ofNat 0 <;> by_cases hl : opt.Long.length > 0
  · rw [if_pos hs] at h
    cases hv1 : st.flags.Var (if opt.Value.length > 0 then FlagValue.stringOpt opt.Name
        else FlagValue.boolOpt opt.Name) (String.singleton opt.Short) with
    | error p => rw [hv1] at h; exact Except.noConfusion h
    | ok f1 =>
      rw [hv1] at h
      simp only at h
      rw [if_pos hl] at h
      cases hv2 : f1.Var (if opt.Value.length > 0 then FlagValue.stringOpt opt.Name
          else FlagValue.boolOpt opt.Name) (lower opt.Long) with
      | error p => rw [hv2] at h; exact Except.noConfusion h
      | ok f2 =>
        rw [hv2] at h
        simp only [Except.ok.injEq] at h
        rw [← h]
        refine ⟨FlagSet.Var_ok_nodup _ _ _ _ hv2 (FlagSet.Var_ok_nodup _ _ _ _ hv1 hnd), ?_⟩
        intro e he
        simp only [optFlags, if_pos hs, if_pos hl, List.singleton_append, List.mem_cons,
          List.mem_singleton, List.not_mem_nil, or_false] at he
        rcases he with he | he
        · rw [he]; exact (FlagSet.Var_ok_inv _ _ _ _ hv1).2.1
        · rw [he]; exact (FlagSet.Var_ok_inv _ _ _ _ hv2).2.1
  · rw [if_pos hs] at h
    cases hv1 : st.flags.Var (if opt.Value.length > 0 then FlagValue.stringOpt opt.Name
        else FlagValue.boolOpt opt.Name) (String.singleton opt.Short) with
    | error p => rw [hv1] at h; exact Except.noConfusion h
    | ok f1 =>
      rw [hv1] at h
      simp only at h
      rw [if_neg hl] at h
      simp only [Except.ok.injEq] at h
      rw [← h]
      refine ⟨FlagSet.Var_ok_nodup _ _ _ _ hv1 hnd, ?_⟩
      intro e he
      simp only [optFlags, if_pos hs, if_neg hl, List.append_nil, List.mem_singleton] at he
      rw [he]; exact (FlagSet.Var_ok_inv _ _ _ _ hv1).2.1
  · rw [if_neg hs] at h
    simp only at h
    rw [if_pos hl] at h
    cases hv2 : st.flags.Var (if opt.Value.length > 0 then FlagValue.stringOpt opt.Name
        else FlagValue.boolOpt opt.Name) (lower opt.Long) with
    | error p => rw [hv2] at h; exact Except.noConfusion h
    | ok f2 =>
      rw [hv2] at h
      simp only [Except.ok.injEq] at h
      rw [← h]
      refine ⟨FlagSet.Var_ok_nodup _ _ _ _ hv2 hnd, ?_⟩
      intro e he
      simp only [optFlags, if_neg hs, if_pos hl, List.nil_append, List.mem_singleton] at he
      rw [he]; exact (FlagSet.Var_ok_inv _ _ _ _ hv2).2.1
  · rw [if_neg hs] at h
    simp only at h
    rw [if_neg hl] at h
    simp only [Except.ok.injEq] at h
    rw [← h]
    refine ⟨hnd, ?_⟩
    intro e he
    simp [optFlags, hs, hl] at he

theorem evaluateCmdOptsLoop_ok_nodup (lower : String → String) (opts : List RunCmdOpt) :
    ∀ st st' : OptsState, evaluateCmdOptsLoop lower opts st = .ok st' →
      (st.flags.formal.map Prod.fst).Nodup →
      (st'.flags.formal.map Prod.fst).Nodup ∧
        ∀ e ∈ declaredFlags lower opts, flagNameOk e.1 = true := by
  induction opts with
  | nil =>
    intro st st' h hnd
    simp only [evaluateCmdOptsLoop, Except.ok.injEq] at h
    rw [← h]
    exact ⟨hnd, by simp [declaredFlags]⟩
  | cons opt rest ih =>
    intro st st' h hnd
    unfold evaluateCmdOptsLoop at h
    cases hstep : evaluateCmdOptsStep lower st opt with
    | error p => rw [hstep] at h; exact Except.noConfusion h
    | ok st1 =>
      rw [hstep] at h
      simp only at h
      obtain ⟨hnd1, hwf1⟩ := evaluateCmdOptsStep_ok_nodup lower st st1 opt hstep hnd
      obtain ⟨hnd2, hwf2⟩ := ih st1 st' h hnd1
      refine ⟨hnd2, ?_⟩
      intro e he
      simp only [declaredFlags, List.mem_append] at he
      rcases he with he | he
      · exact hwf1 e he
      · exact hwf2 e he

/-- The conditions of the amended C8 are necessary: when `evaluateCmdOpts` completes
the registration, every declared flag name is accepted by `(*FlagSet).Var`, and the
declared names and the implicit help names not suppressed are pairwise distinct. -/
theorem evaluateCmdOptsFlags_ok_nodup (lower : String → String) (cmdName : String)
    (opts : List RunCmdOpt) (fs : FlagSet)
    (h : evaluateCmdOptsFlags lower cmdName opts = .ok fs) :
    (∀ e ∈ declaredFlags lower opts, flagNameOk e.1 = true) ∧
      ((declaredFlags lower opts ++ implicitHelpFlags opts).map Prod.fst).Nodup := by
  have hformal := evaluateCmdOptsFlags_ok_inv lower cmdName opts fs h
  unfold evaluateCmdOptsFlags at h
  cases hloop : evaluateCmdOptsLoop lower opts
      { hasHelpShort := false, hasHelpLong := false,
        flags := { name := cmdName, formal := [] } } with
  | error p => rw [hloop] at h; exact Except.noConfusion h
  | ok st =>
    rw [hloop] at h
    simp only at h
    obtain ⟨hnd, hwf⟩ := evaluateCmdOptsLoop_ok_nodup lower opts _ st hloop (by simp)
    refine ⟨hwf, ?_⟩
    have hfs : (fs.formal.map Prod.fst).Nodup := by
      cases hv1 : (if (!st.hasHelpShort) = true then st.flags.Var FlagValue.help "h"
          else Except.ok st.flags) with
      | error p => rw [hv1] at h; exact Except.noConfusion h
      | ok f1 =>
        rw [hv1] at h
        simp only at h
        have hnd1 : (f1.formal.map Prod.fst).Nodup := by
          split at hv1
          · exact FlagSet.Var_ok_nodup _ _ _ _ hv1 hnd
          · simp only [Except.ok.injEq] at hv1
            rw [← hv1]; exact hnd
        split at h
        · exact FlagSet.Var_ok_nodup _ _ _ _ h hnd1
        · simp only [Except.ok.injEq] at h
          rw [← h]; exact hnd1
    rw [hformal] at hfs
    simpa [implicitHelpFlags, List.append_assoc] using hfs

/-! ## Claim on the help screen against the registered flags -/

/-- C12 fails on the code. For the single option `--HELP`, `evaluateCmdOpts` takes the
long form as `help` (`strings.EqualFold`), binds the flag `help` to that option and
registers only `-h` implicitly, while `showCmdUsage` compares `opt.long == "help"`
letter for letter and prints `-h, --help` as the help entry. Whenever the registration
completes, on a non-empty option list, the screen and the flag set agree on `-h`, the
screen never omits a registered `--help`, and they agree on `--help` when every long
form that equals `help` ignoring case is `help` itself. `lower` is Go
`strings.ToLower`, which on `HELP` is the ASCII lower-casing. -/
theorem showCmdUsage_advertises_unregistered_help :
    evaluateCmdOptsFlags asciiLower "greet" [switchOpt "show_help" (Char.ofNat 0) "HELP"]
      = .ok { name := "greet"
              formal := [("help", FlagValue.boolOpt "show_help"), ("h", FlagValue.help)] } ∧
    showCmdUsageHelpLines [switchOpt "show_help" (Char.ofNat 0) "HELP"]
      = ["Options:", "  -h, --help", "        Show full help screen"] ∧
    advertisesLongHelp (showCmdUsageHelpLines [switchOpt "show_help" (Char.ofNat 0) "HELP"])
      = true ∧
    ("help", FlagValue.help) ∉
      [("help", FlagValue.boolOpt "show_help"), ("h", FlagValue.help)] ∧
    (∀ (lower : String → String) (cmdName : String) (opts : List RunCmdOpt) (fs : FlagSet),
      opts ≠ [] →
      evaluateCmdOptsFlags lower cmdName opts = .ok fs →
      (advertisesShortHelp (showCmdUsageHelpLines opts) = true ↔
        ("h", FlagValue.help) ∈ fs.formal) ∧
      (("help", FlagValue.help) ∈ fs.formal →
        advertisesLongHelp (showCmdUsageHelpLines opts) = true) ∧
      ((∀ opt ∈ opts, equalFold opt.Long "help" = true → opt.Long = "help") →
        (advertisesLongHelp (showCmdUsageHelpLines opts) = true ↔
          ("help", FlagValue.help) ∈ fs.formal))) := by
  refine ⟨rfl, by decide, by decide, by decide, ?_⟩
  intro lower cmdName opts fs hne hok
  have hformal := evaluateCmdOptsFlags_ok_inv lower cmdName opts fs hok
  have hmem := implicit_help_mem lower opts
  rw [← hformal] at hmem
  have hadv := showCmdUsageHelpLines_advertises opts hne
  rw [hadv.1, hadv.2, hmem.1, hmem.2]
  refine ⟨by simp, ?_, ?_⟩
  · intro hl
    cases hx : declaresLongHelpExact opts
    · rfl
    · rw [declaresLongHelp_of_exact opts hx] at hl
      exact absurd hl (by decide)
  · intro hcase
    constructor
    · intro hx
      cases hl : declaresLongHelp opts
      · rfl
      · rw [declaresLongHelpExact_of_fold opts hcase hl] at hx
        exact absurd hx (by decide)
    · intro hl
      cases hx : declaresLongHelpExact opts
      · rfl
      · rw [declaresLongHelp_of_exact opts hx] at hl
        exact absurd hl (by decide)

end Run
